import Mathlib

set_option maxHeartbeats 1000000
set_option linter.unusedVariables false

/-!
Verification development for the graphgenerator-v2 repository.

The C++ sources are shallowly embedded as follows:
  - `long double` (`ContinuousNodeID`) and `float` (`Probability`) values are
    idealised as exact rationals (`ℚ`);
  - `uint64_t` counters (`Amount`, `Degree`, `NodeID`) are idealised as `ℕ`
    (no overflow is relevant to the claims below);
  - `std::string` is kept as `String` in the data model and handled as
    `List Char` inside the codec;
  - `std::map<std::string, std::string>` is an association list sorted by key
    (`mapInsert` models insert-or-assign, `mapLookup` models lookup);
  - functions that can throw return `Except String _`.
-/

namespace GraphGen

abbrev Str := List Char

/-- Decimal digit test, mirroring the digits accepted by strtof in the C locale. -/
def isDig (c : Char) : Bool := decide ('0' ≤ c) && decide (c ≤ '9')

/-- Numeric value of a decimal digit character. -/
def digVal (c : Char) : ℕ := c.toNat - 48

/-- Value of a big-endian digit string. -/
def digitsVal (l : Str) : ℕ := l.foldl (fun acc c => acc * 10 + digVal c) 0

/-- Character for a single decimal digit. -/
def digitChar (d : ℕ) : Char :=
  if d = 0 then '0' else if d = 1 then '1' else if d = 2 then '2'
  else if d = 3 then '3' else if d = 4 then '4' else if d = 5 then '5'
  else if d = 6 then '6' else if d = 7 then '7' else if d = 8 then '8' else '9'

/-- Decimal digit expansion of a natural number, most significant digit first.
This is the embedding of std::to_string on unsigned integers. -/
def natDigits (n : ℕ) : Str :=
  if _h : n < 10 then [digitChar n]
  else natDigits (n / 10) ++ [digitChar (n % 10)]
decreasing_by exact Nat.div_lt_self (by omega) (by omega)

/-- String form of a natural number. -/
def natToStr (n : ℕ) : String := String.mk (natDigits n)

theorem digitChar_isDig (d : ℕ) : isDig (digitChar d) = true := by
  unfold digitChar
  repeat' split
  all_goals decide

theorem digVal_digitChar {d : ℕ} (h : d < 10) : digVal (digitChar d) = d := by
  interval_cases d <;> rfl

theorem digitsVal_append (l1 l2 : Str) :
    digitsVal (l1 ++ l2) = l2.foldl (fun acc c => acc * 10 + digVal c) (digitsVal l1) := by
  simp [digitsVal, List.foldl_append]

theorem digitsVal_natDigits (n : ℕ) : digitsVal (natDigits n) = n := by
  induction n using Nat.strong_induction_on with
  | _ n ih =>
    unfold natDigits
    split
    · next h =>
      simp [digitsVal, digVal_digitChar h]
    · next h =>
      rw [digitsVal_append, ih (n / 10) (Nat.div_lt_self (by omega) (by omega))]
      simp [digVal_digitChar (Nat.mod_lt n (by omega))]
      omega

theorem natDigits_all_dig (n : ℕ) : ∀ c ∈ natDigits n, isDig c = true := by
  induction n using Nat.strong_induction_on with
  | _ n ih =>
    unfold natDigits
    split
    · simp [digitChar_isDig]
    · intro c hc
      simp only [List.mem_append, List.mem_singleton] at hc
      rcases hc with hc | hc
      · exact ih (n / 10) (Nat.div_lt_self (by omega) (by omega)) c hc
      · rw [hc]; exact digitChar_isDig _

theorem natDigits_ne_nil (n : ℕ) : natDigits n ≠ [] := by
  unfold natDigits
  split <;> simp

theorem natDigits_length_le {n k : ℕ} (hk : 1 ≤ k) (h : n < 10 ^ k) :
    (natDigits n).length ≤ k := by
  induction n using Nat.strong_induction_on generalizing k with
  | _ n ih =>
    unfold natDigits
    split
    · simpa using hk
    · next hn =>
      have hk2 : 2 ≤ k := by
        by_contra hlt
        have : k = 1 := by omega
        subst this
        simp at h
        omega
      have hdiv : n / 10 < 10 ^ (k - 1) := by
        apply Nat.div_lt_of_lt_mul
        calc n < 10 ^ k := h
          _ = 10 * 10 ^ (k - 1) := by
              rw [← pow_succ']
              congr 1
              omega
      have hlen := ih (n / 10) (Nat.div_lt_self (by omega) (by omega)) (by omega) hdiv
      simp only [List.length_append, List.length_singleton]
      omega

/-- Left-pad a digit string with zeros to width 6, as the fractional part of
the %f conversion used by std::to_string. -/
def padLeft6 (l : Str) : Str := List.replicate (6 - l.length) '0' ++ l

/-- Characters produced by std::to_string on a floating-point value (%f format:
optional minus sign, integer digits, a point, exactly six fractional digits,
rounding to nearest).  The float is idealised as an exact rational. -/
def fmt6Chars (q : ℚ) : Str :=
  let m : ℕ := (Int.floor (|q| * 1000000 + 1 / 2)).toNat
  (if q < 0 then ['-'] else []) ++
    natDigits (m / 1000000) ++ '.' :: padLeft6 (natDigits (m % 1000000))

/-- String produced by std::to_string on a floating-point value. -/
def fmt6 (q : ℚ) : String := String.mk (fmt6Chars q)

/-- Whitespace test of the C locale, as skipped by strtof before the number. -/
def isSpaceC (c : Char) : Bool :=
  c = ' ' || c = '\t' || c = '\n' || c = '\x0b' || c = '\x0c' || c = '\r'

/-- Sign handling of strtof: an optional leading plus or minus sign. -/
def parseSign (cs : Str) : ℚ × Str :=
  match cs with
  | [] => (1, [])
  | c :: t => if c = '-' then (-1, t) else if c = '+' then (1, t) else (1, c :: t)

/-- Exponent part of strtof: an optional sign followed by digits; an exponent
without digits is not consumed and contributes a factor of one. -/
def parseExpVal (t : Str) : ℤ :=
  let st : ℤ × Str :=
    match t with
    | [] => (1, [])
    | c :: r => if c = '-' then (-1, r) else if c = '+' then (1, r) else (1, c :: r)
  let ds := st.2.takeWhile isDig
  if ds = [] then 0 else st.1 * digitsVal ds

/-- Fractional part handling of strtof: a point followed by digits. -/
def parseFrac (r1 : Str) : Str × Str :=
  match r1 with
  | '.' :: t => (t.takeWhile isDig, t.dropWhile isDig)
  | _ => ([], r1)

/-- Exponent marker handling of strtof. -/
def parseExpPart (r2 : Str) : ℤ :=
  match r2 with
  | 'e' :: t => parseExpVal t
  | 'E' :: t => parseExpVal t
  | _ => 0

/-- Decimal prefix parse of std::stof / std::stold, idealised over `ℚ`:
leading C-locale whitespace is skipped, then an optional sign, integer digits,
an optional fractional part and an optional exponent are read; trailing
characters are ignored; `none` models the invalid-argument exception thrown
when no digits can be read.  (Hexadecimal, infinity and NaN inputs are outside
this idealisation.) -/
def parseDecChars (s : Str) : Option ℚ :=
  let sc := parseSign (s.dropWhile isSpaceC)
  let ip := sc.2.takeWhile isDig
  let fr := parseFrac (sc.2.dropWhile isDig)
  if ip.length + fr.1.length = 0 then none
  else
    some (sc.1 * ((digitsVal ip : ℚ) + (digitsVal fr.1 : ℚ) / ((10 : ℚ) ^ fr.1.length)) *
      (10 : ℚ) ^ parseExpPart fr.2)

/-- Decimal prefix parse on strings. -/
def parseDec (s : String) : Option ℚ := parseDecChars s.data

/-- Exact representability with six decimal places: the property under which
the %f rendering of a rational loses nothing. -/
def dec6 (q : ℚ) : Prop := (q * 1000000).den = 1

instance (q : ℚ) : Decidable (dec6 q) := by unfold dec6; infer_instance

theorem takeWhile_append_cons {p : Char → Bool} {l1 l2 : Str} {c : Char}
    (h1 : ∀ a ∈ l1, p a = true) (hc : p c = false) :
    (l1 ++ c :: l2).takeWhile p = l1 := by
  induction l1 with
  | nil => simp [List.takeWhile_cons, hc]
  | cons a t ih =>
    have ha : p a = true := h1 a (by simp)
    simp only [List.cons_append, List.takeWhile_cons, ha]
    simp [ih (fun x hx => h1 x (by simp [hx]))]

theorem dropWhile_append_cons {p : Char → Bool} {l1 l2 : Str} {c : Char}
    (h1 : ∀ a ∈ l1, p a = true) (hc : p c = false) :
    (l1 ++ c :: l2).dropWhile p = c :: l2 := by
  induction l1 with
  | nil => simp [List.dropWhile_cons, hc]
  | cons a t ih =>
    have ha : p a = true := h1 a (by simp)
    simp only [List.cons_append, List.dropWhile_cons, ha]
    simp [ih (fun x hx => h1 x (by simp [hx]))]

theorem takeWhile_all {p : Char → Bool} {l : Str} (h : ∀ a ∈ l, p a = true) :
    l.takeWhile p = l := by
  induction l with
  | nil => rfl
  | cons a t ih =>
    have ha : p a = true := h a (by simp)
    simp [List.takeWhile_cons, ha, ih (fun x hx => h x (by simp [hx]))]

theorem dropWhile_all {p : Char → Bool} {l : Str} (h : ∀ a ∈ l, p a = true) :
    l.dropWhile p = [] := by
  induction l with
  | nil => rfl
  | cons a t ih =>
    have ha : p a = true := h a (by simp)
    simp [List.dropWhile_cons, ha, ih (fun x hx => h x (by simp [hx]))]

theorem isDig_not_spaceC {c : Char} (h : isDig c = true) : isSpaceC c = false := by
  cases hs : isSpaceC c with
  | false => rfl
  | true =>
    exfalso
    simp only [isSpaceC, Bool.or_eq_true, decide_eq_true_eq] at hs
    rcases hs with ((((rfl | rfl) | rfl) | rfl) | rfl) | rfl <;> simp [isDig] at h

theorem isDig_ne_minus {c : Char} (h : isDig c = true) : c ≠ '-' := by
  intro hc; subst hc; simp [isDig] at h

theorem isDig_ne_plus {c : Char} (h : isDig c = true) : c ≠ '+' := by
  intro hc; subst hc; simp [isDig] at h

theorem isDig_ne_dot {c : Char} (h : isDig c = true) : c ≠ '.' := by
  intro hc; subst hc; simp [isDig] at h

theorem padLeft6_all_dig {l : Str} (h : ∀ c ∈ l, isDig c = true) :
    ∀ c ∈ padLeft6 l, isDig c = true := by
  intro c hc
  simp only [padLeft6, List.mem_append, List.mem_replicate] at hc
  rcases hc with hc | hc
  · rw [hc.2]; rfl
  · exact h c hc

theorem digitsVal_replicate_zero (k : ℕ) (l : Str) :
    digitsVal (List.replicate k '0' ++ l) = digitsVal l := by
  induction k with
  | zero => simp
  | succ k ih =>
    simp only [List.replicate_succ, List.cons_append]
    show List.foldl _ (0 * 10 + digVal '0') _ = _
    have : 0 * 10 + digVal '0' = 0 := by rfl
    rw [this]
    exact ih

theorem digitsVal_padLeft6 (l : Str) : digitsVal (padLeft6 l) = digitsVal l :=
  digitsVal_replicate_zero _ _

theorem padLeft6_length {l : Str} (h : l.length ≤ 6) : (padLeft6 l).length = 6 := by
  simp only [padLeft6, List.length_append, List.length_replicate]
  omega

theorem parseDecChars_core (sgn : Bool) (ip fp : ℕ) (hfp : fp < 1000000) :
    parseDecChars ((cond sgn ['-'] []) ++
        natDigits ip ++ '.' :: padLeft6 (natDigits fp)) =
      some ((cond sgn (-1 : ℚ) 1) * ((ip : ℚ) + (fp : ℚ) / 1000000)) := by
  obtain ⟨c, t, hct⟩ : ∃ c t, natDigits ip = c :: t := by
    cases h : natDigits ip with
    | nil => exact absurd h (natDigits_ne_nil ip)
    | cons c t => exact ⟨c, t, rfl⟩
  have hcdig : isDig c = true := natDigits_all_dig ip c (by rw [hct]; simp)
  have hdigs : ∀ a ∈ natDigits ip, isDig a = true := natDigits_all_dig ip
  have hpaddig : ∀ a ∈ padLeft6 (natDigits fp), isDig a = true :=
    padLeft6_all_dig (natDigits_all_dig fp)
  have hdot : isDig '.' = false := rfl
  have hpadlen : (padLeft6 (natDigits fp)).length = 6 :=
    padLeft6_length (natDigits_length_le (by omega) hfp)
  have hdrop :
      ((cond sgn ['-'] []) ++
          natDigits ip ++ '.' :: padLeft6 (natDigits fp)).dropWhile isSpaceC =
        (cond sgn ['-'] []) ++ natDigits ip ++ '.' :: padLeft6 (natDigits fp) := by
    cases sgn with
    | false =>
      simp only [cond_false, List.nil_append, hct, List.cons_append]
      rw [List.dropWhile_cons_of_neg]
      simp [isDig_not_spaceC hcdig]
    | true =>
      simp only [cond_true, List.cons_append, List.nil_append]
      rw [List.dropWhile_cons_of_neg]
      simp [isSpaceC]
  have hsign :
      parseSign ((cond sgn ['-'] []) ++
          natDigits ip ++ '.' :: padLeft6 (natDigits fp)) =
        ((cond sgn (-1 : ℚ) 1), natDigits ip ++ '.' :: padLeft6 (natDigits fp)) := by
    cases sgn with
    | false =>
      simp only [cond_false, List.nil_append, hct, List.cons_append, parseSign]
      rw [if_neg (isDig_ne_minus hcdig), if_neg (isDig_ne_plus hcdig),
        ← List.cons_append, ← hct]
    | true =>
      simp [parseSign]
  have htake : (natDigits ip ++ '.' :: padLeft6 (natDigits fp)).takeWhile isDig =
      natDigits ip := takeWhile_append_cons hdigs hdot
  have hdrop2 : (natDigits ip ++ '.' :: padLeft6 (natDigits fp)).dropWhile isDig =
      '.' :: padLeft6 (natDigits fp) := dropWhile_append_cons hdigs hdot
  have htake3 : (padLeft6 (natDigits fp)).takeWhile isDig = padLeft6 (natDigits fp) :=
    takeWhile_all hpaddig
  have hdrop3 : (padLeft6 (natDigits fp)).dropWhile isDig = [] := dropWhile_all hpaddig
  have hlen : (natDigits ip).length ≠ 0 := by
    rw [hct]; simp
  have hfrac : parseFrac ('.' :: padLeft6 (natDigits fp)) =
      (padLeft6 (natDigits fp), []) := by
    simp only [parseFrac, htake3, hdrop3]
  simp only [parseDecChars]
  rw [hdrop, hsign]
  dsimp only
  rw [htake, hdrop2, hfrac]
  dsimp only
  rw [if_neg (by rw [hct]; simp only [List.length_cons]; omega)]
  simp only [digitsVal_padLeft6, digitsVal_natDigits, hpadlen]
  have hexp : parseExpPart ([] : Str) = 0 := rfl
  rw [hexp]
  norm_num

theorem parseDecChars_fmt6Chars {q : ℚ} (h : dec6 q) :
    parseDecChars (fmt6Chars q) = some q := by
  have hz : ((q * 1000000).num : ℚ) = q * 1000000 := (Rat.den_eq_one_iff _).mp h
  set z : ℤ := (q * 1000000).num with hzdef
  have hcastAbs : (z.natAbs : ℚ) = |(z : ℚ)| := by
    rw [Int.cast_natAbs, Int.cast_abs]
  have habs : |q| * 1000000 = (z.natAbs : ℚ) := by
    rw [hcastAbs, hz, abs_mul]
    norm_num
  have hfl : ∀ n : ℕ, Int.floor ((n : ℚ) + 1 / 2) = (n : ℤ) := by
    intro n
    apply Int.floor_eq_iff.mpr
    constructor
    · push_cast
      linarith
    · push_cast
      linarith
  have hfloor : (Int.floor (|q| * 1000000 + 1 / 2)).toNat = z.natAbs := by
    rw [habs, hfl z.natAbs, Int.toNat_natCast]
  have hfc : fmt6Chars q =
      (if q < 0 then ['-'] else []) ++
        natDigits (z.natAbs / 1000000) ++ '.' ::
          padLeft6 (natDigits (z.natAbs % 1000000)) := by
    unfold fmt6Chars
    rw [hfloor]
  have hmod : z.natAbs % 1000000 < 1000000 := Nat.mod_lt _ (by omega)
  have hdmAll : ∀ m : ℕ, ((m / 1000000 : ℕ) : ℚ) + ((m % 1000000 : ℕ) : ℚ) / 1000000 =
      (m : ℚ) / 1000000 := by
    intro m
    have hnat : (m / 1000000) * 1000000 + m % 1000000 = m := by omega
    field_simp
    exact_mod_cast hnat
  have hdm := hdmAll z.natAbs
  rcases lt_or_le q 0 with hneg | hpos
  · have hzneg : (z : ℚ) < 0 := by
      rw [hz]
      nlinarith
    rw [hfc, if_pos hneg]
    have hcore := parseDecChars_core true (z.natAbs / 1000000) (z.natAbs % 1000000) hmod
    simp only [cond_true] at hcore
    rw [hcore, hdm]
    congr 1
    have hca : (z.natAbs : ℚ) = -(z : ℚ) := by
      rw [hcastAbs, abs_of_neg hzneg]
    rw [hca, hz]
    ring
  · have hzge : (0 : ℚ) ≤ (z : ℚ) := by
      rw [hz]
      nlinarith
    rw [hfc, if_neg (not_lt.mpr hpos)]
    have hcore := parseDecChars_core false (z.natAbs / 1000000) (z.natAbs % 1000000) hmod
    simp only [cond_false] at hcore
    rw [List.nil_append] at hcore ⊢
    rw [hcore, hdm]
    congr 1
    have hca : (z.natAbs : ℚ) = (z : ℚ) := by
      rw [hcastAbs, abs_of_nonneg hzge]
    rw [one_mul, hca, hz]
    ring

/-! ## Data model (m1ModelFormat.cpp, graphgenerator_types.h) -/

/-- Node_Record from m1ModelFormat.cpp: a contiguous interval of nodes of one
type, with continuous (real-valued) endpoints. -/
structure Node_Record where
  startID : ℚ
  endID : ℚ
  node_type : String
deriving DecidableEq, Repr

/-- Edge_Block from m1ModelFormat.cpp: a rectangle in the source-id times
destination-id plane with one expression probability. -/
structure Edge_Block where
  startX : ℚ
  endX : ℚ
  startY : ℚ
  endY : ℚ
  expression_probability : ℚ
deriving DecidableEq, Repr

/-- Edge_Record from m1ModelFormat.cpp: the blocks of one edge type. -/
structure Edge_Record where
  edge_type : String
  blocks : List Edge_Block
deriving DecidableEq, Repr

/-- Meta_Record from m1ModelFormat.cpp: the model name and the remaining
key-value pairs.  The std::map is embedded as an association list kept sorted
by key. -/
structure Meta_Record where
  name : String
  values : List (String × String)
deriving DecidableEq, Repr

/-- m1_data from m1ModelFormat.cpp. -/
structure m1_data where
  meta : Meta_Record
  nodes : List Node_Record
  edges : List Edge_Record
deriving DecidableEq, Repr

/-- Lookup in the association-list embedding of std::map. -/
def mapLookup (m : List (String × String)) (k : String) : Option String :=
  match m with
  | [] => none
  | (k', v) :: t => if k = k' then some v else mapLookup t k

/-- Insert-or-assign in the association-list embedding of std::map, keeping
the list sorted by key as the std::map iteration order is. -/
def mapInsert (m : List (String × String)) (k : String) (v : String) :
    List (String × String) :=
  match m with
  | [] => [(k, v)]
  | (k', v') :: t =>
    if k < k' then (k, v) :: (k', v') :: t
    else if k = k' then (k, v) :: t
    else (k', v') :: mapInsert t k v

theorem mapLookup_mapInsert_self (m : List (String × String)) (k v : String) :
    mapLookup (mapInsert m k v) k = some v := by
  induction m with
  | nil => simp [mapInsert, mapLookup]
  | cons a t ih =>
    obtain ⟨k', v'⟩ := a
    by_cases h1 : k < k'
    · simp [mapInsert, h1, mapLookup]
    · by_cases h2 : k = k'
      · simp [mapInsert, h1, h2, mapLookup]
      · simp [mapInsert, h1, h2, mapLookup, ih]

theorem mapLookup_mapInsert_ne (m : List (String × String)) (k v k0 : String)
    (hne : k0 ≠ k) : mapLookup (mapInsert m k v) k0 = mapLookup m k0 := by
  induction m with
  | nil => simp [mapInsert, mapLookup, hne]
  | cons a t ih =>
    obtain ⟨k', v'⟩ := a
    by_cases h1 : k < k'
    · simp [mapInsert, h1, mapLookup, hne]
    · by_cases h2 : k = k'
      · subst h2
        simp [mapInsert, h1, mapLookup, hne]
      · by_cases h3 : k0 = k'
        · simp [mapInsert, h1, h2, mapLookup, h3]
        · simp [mapInsert, h1, h2, mapLookup, h3, ih]

/-! ## Scale transform (m1ModelFormat.cpp, scale_m1_data) -/

/-- Value of the old SCALE meta entry as read by scale_m1_data: 1.0 when the
key is absent, the std::stof parse of the stored string otherwise, again 1.0
when that parse throws. -/
def parsedScale (m : List (String × String)) : ℚ :=
  match mapLookup m "SCALE" with
  | none => 1
  | some s => (parseDec s).getD 1

/-- Embedding of scale_m1_data from m1ModelFormat.cpp: multiplies every node
interval endpoint and block corner by the factor, divides probabilities by it
(clamping at 1), and records the accumulated SCALE meta entry rendered by
std::to_string.  The zero factor is rejected with an exception. -/
def scale_m1_data (data : m1_data) (scale : ℚ) : Except String m1_data :=
  if scale = 0 then Except.error "Scale must be greater than zero."
  else
    Except.ok
      { meta :=
          { name := data.meta.name,
            values := mapInsert data.meta.values "SCALE"
              (fmt6 (parsedScale data.meta.values * scale)) },
        nodes := data.nodes.map
          (fun n => ⟨n.startID * scale, n.endID * scale, n.node_type⟩),
        edges := data.edges.map (fun er =>
          ⟨er.edge_type, er.blocks.map (fun b =>
            ⟨b.startX * scale, b.endX * scale, b.startY * scale, b.endY * scale,
              if b.expression_probability / scale > 1 then 1
              else b.expression_probability / scale⟩)⟩) }

theorem ite_gt_one_eq_min (x : ℚ) : (if x > 1 then 1 else x) = min 1 x := by
  by_cases h : x > 1
  · simp [h, min_eq_left (le_of_lt h)]
  · simp [h, min_eq_right (not_lt.mp h)]

/-- Claim C1: for every model M and factor k > 0, scale_m1_data succeeds and
returns a model whose node endpoints and block corners are k times those of M,
whose block probabilities are min(1, p/k), whose SCALE meta entry is the old
SCALE value (parsed as a real, 1.0 when absent or unparseable) multiplied by k
and rendered by std::to_string, and whose name, node types, edge types and
other meta entries are unchanged. -/
theorem scale_m1_data_spec (M : m1_data) (k : ℚ) (hk : 0 < k) :
    ∃ R, scale_m1_data M k = Except.ok R ∧
      R.meta.name = M.meta.name ∧
      mapLookup R.meta.values "SCALE" =
        some (fmt6 (parsedScale M.meta.values * k)) ∧
      (∀ key, key ≠ "SCALE" →
        mapLookup R.meta.values key = mapLookup M.meta.values key) ∧
      R.nodes = M.nodes.map
        (fun n => ⟨n.startID * k, n.endID * k, n.node_type⟩) ∧
      R.edges = M.edges.map (fun er =>
        ⟨er.edge_type, er.blocks.map (fun b =>
          ⟨b.startX * k, b.endX * k, b.startY * k, b.endY * k,
            min 1 (b.expression_probability / k)⟩)⟩) := by
  unfold scale_m1_data
  rw [if_neg hk.ne']
  refine ⟨_, rfl, rfl, ?_, ?_, rfl, ?_⟩
  · exact mapLookup_mapInsert_self _ _ _
  · intro key hne
    exact mapLookup_mapInsert_ne _ _ _ _ hne
  · simp only [ite_gt_one_eq_min]

/-- Witness for claim C1: the scale theorem applied to a concrete model and
the concrete factor 2. -/
theorem scale_m1_data_spec_witness :
    ∃ R, scale_m1_data
        ⟨⟨"m", [("A", "b")]⟩, [⟨0, 3, "T"⟩], [⟨"e", [⟨0, 3, 0, 3, 1/2⟩]⟩]⟩ 2 =
          Except.ok R ∧
      R.meta.name = (⟨⟨"m", [("A", "b")]⟩, [⟨0, 3, "T"⟩],
          [⟨"e", [⟨0, 3, 0, 3, 1/2⟩]⟩]⟩ : m1_data).meta.name ∧
      mapLookup R.meta.values "SCALE" =
        some (fmt6 (parsedScale [("A", "b")] * 2)) ∧
      (∀ key, key ≠ "SCALE" →
        mapLookup R.meta.values key = mapLookup [("A", "b")] key) ∧
      R.nodes = [Node_Record.mk 0 3 "T"].map
        (fun n => ⟨n.startID * 2, n.endID * 2, n.node_type⟩) ∧
      R.edges = [Edge_Record.mk "e" [⟨0, 3, 0, 3, 1/2⟩]].map (fun er =>
        ⟨er.edge_type, er.blocks.map (fun b =>
          ⟨b.startX * 2, b.endX * 2, b.startY * 2, b.endY * 2,
            min 1 (b.expression_probability / 2)⟩)⟩) :=
  scale_m1_data_spec _ 2 (by norm_num)

/-! ## Sampler block conversion (Generator.cpp, read_edge_block_data) -/

/-- Integer node id recovered for the start of a block (floor(x) + 1). -/
def convert_start_of_block (x : ℚ) : ℤ := ⌊x⌋ + 1

/-- Integer node id recovered for the end of a block (floor(x)). -/
def convert_end_of_block (x : ℚ) : ℤ := ⌊x⌋

/-- Record handed to the sampler workers: integer corners plus a probability
already clamped into [0, 1]. -/
structure GenRecord where
  startX : ℤ
  endX : ℤ
  startY : ℤ
  endY : ℤ
  prob : ℚ
deriving DecidableEq, Repr

/-- Degenerate block: integer corners invert after conversion, which can
happen after downscaling. -/
def degenerateBlock (b : Edge_Block) : Prop :=
  convert_end_of_block b.endX < convert_start_of_block b.startX ∨
    convert_end_of_block b.endY < convert_start_of_block b.startY

instance (b : Edge_Block) : Decidable (degenerateBlock b) := by
  unfold degenerateBlock; infer_instance

/-- Loop body of read_edge_block_data: degenerate blocks are skipped, all
other blocks are converted with the probability clamped to at most 1. -/
def convertBlocks : List Edge_Block → List GenRecord
  | [] => []
  | b :: rest =>
    if degenerateBlock b then convertBlocks rest
    else
      ⟨convert_start_of_block b.startX, convert_end_of_block b.endX,
        convert_start_of_block b.startY, convert_end_of_block b.endY,
        if b.expression_probability > 1 then 1 else b.expression_probability⟩ ::
        convertBlocks rest

/-- Embedding of read_edge_block_data from Generator.cpp: an over-long edge
type throws, otherwise the block list is converted. -/
def read_edge_block_data (data : Edge_Record) : Except String (List GenRecord) :=
  if 64 < data.edge_type.length then
    Except.error "The edge-type is larger than the allowed size."
  else Except.ok (convertBlocks data.blocks)

theorem convertBlocks_erase_degenerate {b : Edge_Block} (hdeg : degenerateBlock b) :
    ∀ l : List Edge_Block, convertBlocks (l.erase b) = convertBlocks l := by
  intro l
  induction l with
  | nil => rfl
  | cons a t ih =>
    by_cases hab : a = b
    · subst hab
      rw [List.erase_cons_head]
      simp [convertBlocks, hdeg]
    · rw [List.erase_cons_tail (by simp [hab])]
      by_cases hd : degenerateBlock a
      · simp [convertBlocks, hd, ih]
      · simp [convertBlocks, hd, ih]

/-- Claim C8: a block whose converted integer corners invert is skipped by the
sampler conversion: the conversion does not abort and produces exactly what it
produces on the model with that block removed, so no edges are emitted for it
and the remaining blocks are processed. -/
theorem read_edge_block_data_skips (data : Edge_Record) (b : Edge_Block)
    (hb : b ∈ data.blocks) (hdeg : degenerateBlock b)
    (hty : data.edge_type.length ≤ 64) :
    (∃ l, read_edge_block_data data = Except.ok l) ∧
      read_edge_block_data data =
        read_edge_block_data ⟨data.edge_type, data.blocks.erase b⟩ := by
  have hok : ¬ 64 < data.edge_type.length := not_lt.mpr hty
  unfold read_edge_block_data
  rw [if_neg hok]
  dsimp only
  rw [if_neg hok]
  exact ⟨⟨_, rfl⟩, by rw [convertBlocks_erase_degenerate hdeg]⟩

/-- Witness for claim C8: a concrete edge record whose first block has an
inverted X interval after conversion. -/
theorem read_edge_block_data_skips_witness :
    (∃ l, read_edge_block_data ⟨"e", [⟨0, 0, 0, 1, 1/2⟩, ⟨0, 2, 0, 2, 1/2⟩]⟩ =
        Except.ok l) ∧
      read_edge_block_data ⟨"e", [⟨0, 0, 0, 1, 1/2⟩, ⟨0, 2, 0, 2, 1/2⟩]⟩ =
        read_edge_block_data
          ⟨"e", ([⟨0, 0, 0, 1, 1/2⟩, ⟨0, 2, 0, 2, 1/2⟩] :
            List Edge_Block).erase ⟨0, 0, 0, 1, 1/2⟩⟩ :=
  read_edge_block_data_skips _ _ (by simp)
    (by
      unfold degenerateBlock convert_end_of_block convert_start_of_block
      norm_num)
    (by decide)

/-! ## Sampler inner loop (Generator.cpp, multithread_generate_graph) -/

/-- State of the geometric-jump loop: the X offset inside the current row and
the current row index. -/
structure JumpState where
  offset_x : ℕ
  idx_y : ℕ
deriving DecidableEq, Repr

/-- One iteration of the geometric-jump loop: the cursor advances by the drawn
jump distance, wrapping the X offset and carrying into the row index exactly
as the source does (offset_x = next mod len_x; idx_y += next / len_x). -/
def jumpStep (len_x jump : ℕ) (s : JumpState) : JumpState :=
  ⟨(s.offset_x + jump) % len_x, s.idx_y + (s.offset_x + jump) / len_x⟩

/-- The loop state after k iterations when iteration i draws jump distance
u i. -/
def runJumps (len_x : ℕ) (u : ℕ → ℕ) : ℕ → JumpState → JumpState
  | 0, s => s
  | k + 1, s => jumpStep len_x (u k) (runJumps len_x u k s)

/-- Linear cursor of the loop state: row-major position in the block. -/
def cursorJ (len_x : ℕ) (s : JumpState) : ℕ := s.idx_y * len_x + s.offset_x

theorem cursorJ_jumpStep (len_x jump : ℕ) (hlen : 0 < len_x) (s : JumpState) :
    cursorJ len_x (jumpStep len_x jump s) = cursorJ len_x s + jump := by
  have h2 : (s.offset_x + jump) / len_x * len_x + (s.offset_x + jump) % len_x =
      s.offset_x + jump := Nat.div_add_mod' _ _
  unfold cursorJ jumpStep
  dsimp only
  rw [Nat.add_mul]
  linarith [h2]

theorem cursorJ_runJumps_ge (len_x : ℕ) (hlen : 0 < len_x) (u : ℕ → ℕ)
    (hu : ∀ i, 1 ≤ u i) (k : ℕ) (s : JumpState) :
    cursorJ len_x s + k ≤ cursorJ len_x (runJumps len_x u k s) := by
  induction k with
  | zero => simp [runJumps]
  | succ k ih =>
    have hk := hu k
    rw [runJumps, cursorJ_jumpStep len_x (u k) hlen]
    omega

theorem offset_runJumps_lt (len_x : ℕ) (hlen : 0 < len_x) (u : ℕ → ℕ) (k : ℕ)
    (s : JumpState) (hs : s.offset_x < len_x) :
    (runJumps len_x u k s).offset_x < len_x := by
  induction k with
  | zero => simpa [runJumps]
  | succ k ih =>
    rw [runJumps]
    exact Nat.mod_lt _ hlen

/-- Claim C10: with every drawn jump distance at least 1 (which the uniform
draw from an interval open at 0 and 1 guarantees), the linear cursor of the
geometric-jump loop strictly increases on every iteration, and within at most
width times height + 1 iterations the row index exceeds endY, so the loop of
multithread_generate_graph terminates for every block with positive clamped
probability. -/
theorem geom_jump_terminates (sX eX sY eY : ℕ) (u : ℕ → ℕ)
    (hx : sX ≤ eX) (hy : sY ≤ eY) (hu : ∀ i, 1 ≤ u i) :
    (∀ k, cursorJ (eX - sX + 1) (runJumps (eX - sX + 1) u k ⟨0, sY⟩) + 1 ≤
        cursorJ (eX - sX + 1) (runJumps (eX - sX + 1) u (k + 1) ⟨0, sY⟩)) ∧
      ∃ k, k ≤ (eX - sX + 1) * (eY - sY + 1) + 1 ∧
        eY < (runJumps (eX - sX + 1) u k ⟨0, sY⟩).idx_y := by
  have hlen : 0 < eX - sX + 1 := by omega
  constructor
  · intro k
    rw [runJumps, cursorJ_jumpStep _ (u k) hlen]
    have := hu k
    omega
  · refine ⟨(eX - sX + 1) * (eY - sY + 1), by omega, ?_⟩
    set W := eX - sX + 1 with hW
    set H := eY - sY + 1 with hH
    set s := runJumps W u (W * H) ⟨0, sY⟩ with hs
    have hc : cursorJ W (⟨0, sY⟩ : JumpState) + W * H ≤ cursorJ W s :=
      cursorJ_runJumps_ge W hlen u hu (W * H) _
    have hc0 : cursorJ W (⟨0, sY⟩ : JumpState) = sY * W := by
      unfold cursorJ; simp
    have hoff : s.offset_x < W := offset_runJumps_lt W hlen u (W * H) _ hlen
    by_contra hle
    push_neg at hle
    have hcs : cursorJ W s = s.idx_y * W + s.offset_x := rfl
    have h2 : s.idx_y * W ≤ eY * W := Nat.mul_le_mul_right W hle
    have h3 : cursorJ W s < (eY + 1) * W := by
      rw [hcs, add_mul, one_mul]
      omega
    have h4 : (eY + 1) * W = sY * W + W * H := by
      have h5 : eY + 1 = sY + H := by omega
      rw [h5, add_mul]
      ring_nf
    rw [hc0] at hc
    omega

/-- Witness for claim C10: the termination theorem applied to the unit block
with the constant jump stream 1. -/
theorem geom_jump_terminates_witness :
    (∀ k, cursorJ (3 - 2 + 1) (runJumps (3 - 2 + 1) (fun _ => 1) k ⟨0, 5⟩) + 1 ≤
        cursorJ (3 - 2 + 1) (runJumps (3 - 2 + 1) (fun _ => 1) (k + 1) ⟨0, 5⟩)) ∧
      ∃ k, k ≤ (3 - 2 + 1) * (6 - 5 + 1) + 1 ∧
        6 < (runJumps (3 - 2 + 1) (fun _ => 1) k ⟨0, 5⟩).idx_y :=
  geom_jump_terminates 2 3 5 6 (fun _ => 1) (by omega) (by omega)
    (fun i => le_refl 1)

/-! ## Worker partition (Generator.cpp, generate_graph lines 190-224) -/

/-- Per-thread range loop of generate_graph: each thread is handed the current
(idx_start, idx_end) pair, then idx_start becomes idx_end + 1, idx_end becomes
idx_start + workload_size, clamped to size - 1 only when it exceeds size. -/
def partitionGo (size w : ℕ) : ℕ → ℕ → ℕ → List (ℕ × ℕ)
  | 0, _, _ => []
  | t + 1, s, e =>
    (s, e) ::
      partitionGo size w t (e + 1)
        (if size < e + 1 + w then size - 1 else e + 1 + w)

/-- Block ranges handed to the worker threads by generate_graph:
workload_size = size / n_threads, overflow_workload_size = workload_size mod
n_threads, first range (0, overflow + workload_size - 1).  Natural subtraction
stands in for the size_t subtraction; no wrap occurs at the inputs used
below. -/
def partitionRanges (size n_threads : ℕ) : List (ℕ × ℕ) :=
  partitionGo size (size / n_threads) n_threads 0
    (size / n_threads % n_threads + size / n_threads - 1)

/-- Indices visited by a worker: the inclusive loop
for (idx = workload_start; idx <= workload_end; ++idx). -/
def workloadIndices (r : ℕ × ℕ) : List ℕ := List.range' r.1 (r.2 + 1 - r.1)

/-- Claim C6 (failing input): with 100 blocks and 2 worker threads (hardware
concurrency 3) the second range handed out is (50, 100), whose worker loop
visits index 100 — one past the end of the block vector — so the claimed
bound idx_end < size is violated by the clamp being idx_end > size instead of
idx_end >= size. -/
theorem partition_reaches_size :
    partitionRanges 100 2 = [(0, 49), (50, 100)] ∧
      100 ∈ workloadIndices (50, 100) := by
  constructor
  · rfl
  · decide

/-! ## Node interval assignment (GenericGraphReader.cpp, process) -/

/-- Edge_Type_Container from GenericGraphReader.cpp: degree distributions of
one (node type, edge type) pair. -/
structure Edge_Type_Container where
  sum_of_in_degrees : ℕ
  sum_of_out_degrees : ℕ
  number_of_nodes_with_in_degree : ℕ
  number_of_nodes_with_out_degree : ℕ
  in_degrees : List (ℕ × ℕ)
  out_degrees : List (ℕ × ℕ)
deriving DecidableEq, Repr

/-- Node_Type_Container from GenericGraphReader.cpp.  The C++ member edge_data
is a std::unordered_map; it is embedded as an association list. -/
structure Node_Type_Container where
  node_count : ℕ
  node_type : String
  edge_data : List (String × Edge_Type_Container)
deriving DecidableEq, Repr

/-- Interval assignment loop of GenericGraphReader::process (lines 174-179):
each container receives the id interval (current_id, current_id + count] in
the iteration order of the container list — which in the source is the
iteration order of a std::unordered_map, passed here as the list order. -/
def assignNodes : List Node_Type_Container → ℕ → List Node_Record
  | [], _ => []
  | c :: rest, current_id =>
    ⟨(current_id : ℚ), ((current_id + c.node_count : ℕ) : ℚ), c.node_type⟩ ::
      assignNodes rest (current_id + c.node_count)

/-- Ordering of Node_Record used by std::sort (operator< on (startID, endID)). -/
def nodeRecLt (a b : Node_Record) : Prop :=
  a.startID < b.startID ∨ (a.startID = b.startID ∧ a.endID < b.endID)

instance : DecidableRel nodeRecLt := by
  unfold nodeRecLt; infer_instance

/-- Final node-record sort of GenericGraphReader::process (line 249). -/
def sortNodes (l : List Node_Record) : List Node_Record :=
  l.insertionSort nodeRecLt

/-- Claim C5 (failing input): two container iteration orders that are
permutations of each other — as different std::unordered_map layouts produce —
yield different node-record lists even after the final sort, so the compiled
model is not a function of the observations and the seed alone. -/
theorem assignNodes_order_dependent :
    ([⟨1, "A", []⟩, ⟨2, "B", []⟩] : List Node_Type_Container).Perm
        [⟨2, "B", []⟩, ⟨1, "A", []⟩] ∧
      sortNodes (assignNodes [⟨1, "A", []⟩, ⟨2, "B", []⟩] 0) ≠
        sortNodes (assignNodes [⟨2, "B", []⟩, ⟨1, "A", []⟩] 0) := by
  constructor
  · exact List.Perm.swap _ _ _
  · have e1 : sortNodes (assignNodes [⟨1, "A", []⟩, ⟨2, "B", []⟩] 0) =
        [⟨0, 1, "A"⟩, ⟨1, 3, "B"⟩] := by
      norm_num [sortNodes, assignNodes, List.insertionSort, List.orderedInsert,
        nodeRecLt]
    have e2 : sortNodes (assignNodes [⟨2, "B", []⟩, ⟨1, "A", []⟩] 0) =
        [⟨0, 2, "B"⟩, ⟨2, 3, "A"⟩] := by
      norm_num [sortNodes, assignNodes, List.insertionSort, List.orderedInsert,
        nodeRecLt]
    intro hcontra
    rw [e1, e2] at hcontra
    have htypes := congrArg (List.map Node_Record.node_type) hcontra
    simp at htypes

/-! ## Multi-instance generation paths (main.cpp, IGenerate, lines 101-121) -/

/-- Characters of std::filesystem::path::parent_path for plain generic paths:
everything before the last slash, empty when the path has no slash. -/
def parentChars (p : Str) : Str :=
  ((p.reverse.dropWhile (fun c => c != '/')).drop 1).reverse

/-- Characters of std::filesystem::path::filename: everything after the last
slash, the whole path when it has no slash. -/
def fileNameChars (p : Str) : Str :=
  (p.reverse.takeWhile (fun c => c != '/')).reverse

/-- Characters of std::filesystem::path::extension on a filename: from the
last period on, except that a dot-file (period only at the front) and the
special names dot and dot-dot have no extension. -/
def extChars (fn : Str) : Str :=
  if fn = ['.'] ∨ fn = ['.', '.'] then []
  else
    let r := fn.reverse.takeWhile (fun c => c != '.')
    if r.length = fn.length then []
    else if r.length + 1 = fn.length then []
    else '.' :: r.reverse

/-- Characters of std::filesystem::path::stem: the filename minus its
extension. -/
def stemChars (fn : Str) : Str := fn.take (fn.length - (extChars fn).length)

/-- Output path used by the multi-instance Generate branch of main.cpp:
parent_path().string() + slash + stem().string() + underscore +
std::to_string(i) + extension().string(). -/
def buildMultiPath (p : String) (i : ℕ) : String :=
  String.mk (parentChars p.data ++ '/' ::
    (stemChars (fileNameChars p.data) ++ '_' :: natDigits i ++
      extChars (fileNameChars p.data)))

/-- Sampler invocations performed by one Generate instruction of main.cpp:
paths and the successive per-invocation PRNG draws (seeds i is the i-th draw
of the runtime PRNG inside this instruction). -/
def generateInvocations (nodeP edgeP : String) (n : ℕ) (seeds : ℕ → ℕ) :
    List (String × String × ℕ) :=
  if n = 1 then [(nodeP, edgeP, seeds 0)]
  else (List.range n).map (fun i => (buildMultiPath nodeP i, buildMultiPath edgeP i, seeds i))

theorem dropWhile_head_not {p : Char → Bool} {l r : Str} {c : Char}
    (h : l.dropWhile p = c :: r) : p c = false := by
  induction l with
  | nil => simp at h
  | cons a t ih =>
    rw [List.dropWhile_cons] at h
    by_cases hp : p a = true
    · rw [if_pos hp] at h
      exact ih h
    · rw [if_neg hp] at h
      injection h with h1 h2
      subst h1
      simpa using hp

theorem parentChars_of_dir {d fn : Str} (hfn : ∀ c ∈ fn, (c != '/') = true) :
    parentChars (d ++ '/' :: fn) = d := by
  unfold parentChars
  rw [List.reverse_append, List.reverse_cons, List.append_assoc,
    List.singleton_append]
  have hrev : ∀ c ∈ fn.reverse, (c != '/') = true := by
    intro c hc
    exact hfn c (List.mem_reverse.mp hc)
  rw [dropWhile_append_cons hrev (by simp)]
  simp

theorem fileNameChars_of_dir {d fn : Str} (hfn : ∀ c ∈ fn, (c != '/') = true) :
    fileNameChars (d ++ '/' :: fn) = fn := by
  unfold fileNameChars
  rw [List.reverse_append, List.reverse_cons, List.append_assoc,
    List.singleton_append]
  have hrev : ∀ c ∈ fn.reverse, (c != '/') = true := by
    intro c hc
    exact hfn c (List.mem_reverse.mp hc)
  rw [takeWhile_append_cons hrev (by simp)]
  simp

theorem stemChars_append_extChars (fn : Str) :
    stemChars fn ++ extChars fn = fn := by
  unfold stemChars
  by_cases hsp : fn = ['.'] ∨ fn = ['.', '.']
  · rw [extChars, if_pos hsp]
    simp
  · rw [extChars, if_neg hsp]
    dsimp only
    by_cases h1 : (fn.reverse.takeWhile (fun c => c != '.')).length = fn.length
    · rw [if_pos h1]
      simp
    · rw [if_neg h1]
      by_cases h2 : (fn.reverse.takeWhile (fun c => c != '.')).length + 1 = fn.length
      · rw [if_pos h2]
        simp
      · rw [if_neg h2]
        set r := fn.reverse.takeWhile (fun c => c != '.') with hr
        have hsplit : r ++ fn.reverse.dropWhile (fun c => c != '.') = fn.reverse :=
          List.takeWhile_append_dropWhile _ _
        obtain ⟨c0, rest, hd⟩ : ∃ c0 rest,
            fn.reverse.dropWhile (fun c => c != '.') = c0 :: rest := by
          cases hcase : fn.reverse.dropWhile (fun c => c != '.') with
          | nil =>
            exfalso
            apply h1
            rw [hcase] at hsplit
            have := congrArg List.length hsplit
            simpa using this
          | cons c0 rest => exact ⟨c0, rest, rfl⟩
        have hc0 : c0 = '.' := by
          have hx := dropWhile_head_not hd
          simpa using hx
        subst hc0
        have hfn : fn = rest.reverse ++ '.' :: r.reverse := by
          have : fn.reverse = r ++ '.' :: rest := by rw [← hsplit, hd]
          calc fn = fn.reverse.reverse := by simp
            _ = (r ++ '.' :: rest).reverse := by rw [this]
            _ = rest.reverse ++ '.' :: r.reverse := by
                rw [List.reverse_append]
                simp
        have hlen : fn.length = rest.length + 1 + r.length := by
          rw [hfn]
          simp
          omega
        rw [hfn]
        have htake : (rest.reverse ++ '.' :: r.reverse).length - ('.' :: r.reverse).length =
            rest.reverse.length := by
          simp
        rw [htake]
        rw [List.take_left]

/-- Claim C9 (counterexample): for a bare filename without a directory part,
the multi-instance path construction prepends a slash — parent_path() is empty
and the code concatenates it with '/' unconditionally — so "out.tsv" becomes
the absolute path "/out_0.tsv" instead of the claimed "out_0.tsv" in the same
directory. -/
theorem buildMultiPath_bare_filename :
    buildMultiPath "out.tsv" 0 = "/out_0.tsv" ∧
      ("/out_0.tsv" : String) ≠ "out_0.tsv" := by
  constructor
  · unfold buildMultiPath
    rw [show natDigits 0 = ['0'] from by unfold natDigits; rfl]
    rfl
  · decide

/-- Claim C9 (amended): for n > 1 and paths that do contain a directory part,
the i-th invocation (i = 0 .. n-1) of the Generate instruction receives the
path obtained by appending an underscore and i to the file stem, preserving
the directory part and the extension, and receives the i-th successive draw of
the runtime PRNG as its seed; for a path without a directory part the code
instead prepends '/', redirecting the output to the filesystem root. -/
theorem generateInvocations_spec (dn fnn de fne : Str) (n : ℕ) (seeds : ℕ → ℕ)
    (hn : 1 < n)
    (hfn1 : ∀ c ∈ fnn, (c != '/') = true)
    (hfe1 : ∀ c ∈ fne, (c != '/') = true) :
    (∀ i, i < n →
      (generateInvocations (String.mk (dn ++ '/' :: fnn))
          (String.mk (de ++ '/' :: fne)) n seeds)[i]? =
        some (String.mk (dn ++ '/' ::
            (stemChars fnn ++ '_' :: natDigits i ++ extChars fnn)),
          String.mk (de ++ '/' ::
            (stemChars fne ++ '_' :: natDigits i ++ extChars fne)),
          seeds i)) ∧
      stemChars fnn ++ extChars fnn = fnn ∧
      stemChars fne ++ extChars fne = fne := by
  refine ⟨?_, stemChars_append_extChars fnn, stemChars_append_extChars fne⟩
  intro i hi
  unfold generateInvocations
  rw [if_neg (by omega)]
  rw [List.getElem?_map, List.getElem?_range hi]
  unfold buildMultiPath
  have h1 : (String.mk (dn ++ '/' :: fnn)).data = dn ++ '/' :: fnn := rfl
  have h2 : (String.mk (de ++ '/' :: fne)).data = de ++ '/' :: fne := rfl
  rw [h1, h2, parentChars_of_dir hfn1, fileNameChars_of_dir hfn1,
    parentChars_of_dir hfe1, fileNameChars_of_dir hfe1]
  rfl

/-- Witness for claim C9: the amended multi-instance theorem applied to the
concrete paths d/out.tsv and d/edges.tsv with n = 2. -/
theorem generateInvocations_spec_witness :
    (∀ i, i < 2 →
      (generateInvocations (String.mk (['d'] ++ '/' :: ("out.tsv").data))
          (String.mk (['d'] ++ '/' :: ("edges.tsv").data)) 2 (fun j => j + 7))[i]? =
        some (String.mk (['d'] ++ '/' ::
            (stemChars ("out.tsv").data ++ '_' :: natDigits i ++
              extChars ("out.tsv").data)),
          String.mk (['d'] ++ '/' ::
            (stemChars ("edges.tsv").data ++ '_' :: natDigits i ++
              extChars ("edges.tsv").data)),
          i + 7)) ∧
      stemChars ("out.tsv").data ++ extChars ("out.tsv").data = ("out.tsv").data ∧
      stemChars ("edges.tsv").data ++ extChars ("edges.tsv").data =
        ("edges.tsv").data :=
  generateInvocations_spec ['d'] ("out.tsv").data ['d'] ("edges.tsv").data 2
    (fun j => j + 7) (by omega) (by decide) (by decide)

/-! ## Block emission (GenericGraphReader.cpp, process lines 182-244) -/

instance : Inhabited Edge_Type_Container := ⟨⟨0, 0, 0, 0, [], []⟩⟩

/-- Lookup in the unordered_map edge_data of a container. -/
def edLookup (m : List (String × Edge_Type_Container)) (k : String) :
    Option Edge_Type_Container :=
  match m with
  | [] => none
  | (k', v) :: t => if k = k' then some v else edLookup t k

/-- has_edge_type from Node_Type_Container. -/
def Node_Type_Container.hasET (c : Node_Type_Container) (t : String) : Bool :=
  (edLookup c.edge_data t).isSome

/-- edge_data access of the source (operator[] guarded by has_edge_type). -/
def Node_Type_Container.getET (c : Node_Type_Container) (t : String) :
    Edge_Type_Container :=
  (edLookup c.edge_data t).getD default

/-- DDcSBM probability of one degree pair, as computed on line 217 of
GenericGraphReader.cpp, with the zero-division guard of line 216. -/
def ddProb (ebt sumOut sumIn degx degy : ℕ) : ℚ :=
  if 0 < sumOut ∧ 0 < sumIn then
    (ebt : ℚ) * ((degx : ℚ) / (sumOut : ℚ)) * ((degy : ℚ) / (sumIn : ℚ))
  else 0

/-- Innermost loop of process (lines 210-235): iterate the in-degree entries
of the destination container, stepping current_id_y, emitting a block for
every positive probability and counting probabilities above 1 as model
failures. -/
def emitInner (ebt sumOut sumIn degx ax cx : ℕ) :
    List (ℕ × ℕ) → ℕ → List Edge_Block × ℕ
  | [], _ => ([], 0)
  | (degy, ay) :: rest, cy =>
    let prob := ddProb ebt sumOut sumIn degx degy
    let r := emitInner ebt sumOut sumIn degx ax cx rest (cy + ay)
    ((if 0 < prob then
        [⟨(cx : ℚ), ((cx + ax : ℕ) : ℚ), (cy : ℚ), ((cy + ay : ℕ) : ℚ), prob⟩]
      else []) ++ r.1,
      (if 1 < prob then 1 else 0) + r.2)

/-- Out-degree loop of process (lines 208-237), stepping current_id_x. -/
def emitOuter (ebt sumOut sumIn : ℕ) (ins : List (ℕ × ℕ)) (y0 : ℕ) :
    List (ℕ × ℕ) → ℕ → List Edge_Block × ℕ
  | [], _ => ([], 0)
  | (degx, ax) :: rest, cx =>
    let rI := emitInner ebt sumOut sumIn degx ax cx ins y0
    let rO := emitOuter ebt sumOut sumIn ins y0 rest (cx + ax)
    (rI.1 ++ rO.1, rI.2 + rO.2)

/-- Destination-container loop of process (lines 199-239): containers without
in-degrees for this edge type are skipped but still advance outer_id_y. -/
def emitY (e : String) (sbm : String → String × String → ℕ)
    (cx_ctr : Node_Type_Container) (outer_id_x : ℕ) :
    List Node_Type_Container → ℕ → List Edge_Block × ℕ
  | [], _ => ([], 0)
  | cy :: rest, outer_id_y =>
    if cy.hasET e = false ∨ (cy.getET e).number_of_nodes_with_in_degree = 0 then
      emitY e sbm cx_ctr outer_id_x rest (outer_id_y + cy.node_count)
    else
      let ebt := sbm e (cx_ctr.node_type, cy.node_type)
      let r := emitOuter ebt (cx_ctr.getET e).sum_of_out_degrees
        (cy.getET e).sum_of_in_degrees (cy.getET e).in_degrees outer_id_y
        (cx_ctr.getET e).out_degrees outer_id_x
      let rest' := emitY e sbm cx_ctr outer_id_x rest (outer_id_y + cy.node_count)
      (r.1 ++ rest'.1, r.2 + rest'.2)

/-- Source-container loop of process (lines 190-241): containers without
out-degrees for this edge type are skipped but still advance outer_id_x; the
destination loop always restarts from the full container list with
outer_id_y = 0. -/
def emitX (e : String) (sbm : String → String × String → ℕ)
    (work : List Node_Type_Container) :
    List Node_Type_Container → ℕ → List Edge_Block × ℕ
  | [], _ => ([], 0)
  | cx :: rest, outer_id_x =>
    if cx.hasET e = false ∨ (cx.getET e).number_of_nodes_with_out_degree = 0 then
      emitX e sbm work rest (outer_id_x + cx.node_count)
    else
      let r := emitY e sbm cx outer_id_x work 0
      let rest' := emitX e sbm work rest (outer_id_x + cx.node_count)
      (r.1 ++ rest'.1, r.2 + rest'.2)

/-- Ordering of Edge_Block used by std::sort (operator< on (startX, startY)). -/
def blockLt (a b : Edge_Block) : Prop :=
  a.startX < b.startX ∨ (a.startX = b.startX ∧ a.startY < b.startY)

instance : DecidableRel blockLt := by
  unfold blockLt; infer_instance

/-- Block sort of process (line 242). -/
def sortBlocks (l : List Edge_Block) : List Edge_Block :=
  l.insertionSort blockLt

/-- Edge record construction of process for one edge type (lines 184-243),
returning the record together with the number of model failures counted. -/
def processEdgeType (e : String) (sbm : String → String × String → ℕ)
    (work : List Node_Type_Container) : Edge_Record × ℕ :=
  ((⟨e, sortBlocks (emitX e sbm work work 0).1⟩ : Edge_Record),
    (emitX e sbm work work 0).2)

theorem emitInner_all_pos (ebt sumOut sumIn degx ax cx : ℕ)
    (ins : List (ℕ × ℕ)) (cy : ℕ) :
    ∀ b ∈ (emitInner ebt sumOut sumIn degx ax cx ins cy).1,
      0 < b.expression_probability := by
  induction ins generalizing cy with
  | nil => intro b hb; simp [emitInner] at hb
  | cons hd tl ih =>
    obtain ⟨degy, ay⟩ := hd
    intro b hb
    rw [emitInner] at hb
    simp only [List.mem_append] at hb
    rcases hb with hb | hb
    · by_cases hp : 0 < ddProb ebt sumOut sumIn degx degy
      · rw [if_pos hp] at hb
        simp at hb
        rw [hb]
        exact hp
      · rw [if_neg hp] at hb
        simp at hb
    · exact ih (cy + ay) b hb

theorem emitInner_fail_count (ebt sumOut sumIn degx ax cx : ℕ)
    (ins : List (ℕ × ℕ)) (cy : ℕ) :
    (emitInner ebt sumOut sumIn degx ax cx ins cy).2 =
      ((emitInner ebt sumOut sumIn degx ax cx ins cy).1.filter
        (fun b => 1 < b.expression_probability)).length := by
  induction ins generalizing cy with
  | nil => simp [emitInner]
  | cons hd tl ih =>
    obtain ⟨degy, ay⟩ := hd
    rw [emitInner]
    dsimp only
    rw [List.filter_append, List.length_append, ← ih (cy + ay)]
    by_cases hp1 : 1 < ddProb ebt sumOut sumIn degx degy
    · have hp0 : 0 < ddProb ebt sumOut sumIn degx degy :=
        lt_trans zero_lt_one hp1
      rw [if_pos hp1, if_pos hp0]
      simp [hp1]
    · rw [if_neg hp1]
      by_cases hp0 : 0 < ddProb ebt sumOut sumIn degx degy
      · rw [if_pos hp0]
        simp [hp1]
      · rw [if_neg hp0]
        simp

theorem emitInner_mem (ebt sumOut sumIn degx ax cx : ℕ)
    (ins : List (ℕ × ℕ)) (cy : ℕ) (j : ℕ) (hj : j < ins.length)
    (hp : 0 < ddProb ebt sumOut sumIn degx (ins.get ⟨j, hj⟩).1) :
    (⟨(cx : ℚ), ((cx + ax : ℕ) : ℚ),
        ((cy + ((ins.take j).map Prod.snd).sum : ℕ) : ℚ),
        ((cy + ((ins.take j).map Prod.snd).sum + (ins.get ⟨j, hj⟩).2 : ℕ) : ℚ),
        ddProb ebt sumOut sumIn degx (ins.get ⟨j, hj⟩).1⟩ : Edge_Block) ∈
      (emitInner ebt sumOut sumIn degx ax cx ins cy).1 := by
  induction ins generalizing cy j with
  | nil => exact absurd hj (by simp)
  | cons hd tl ih =>
    obtain ⟨degy, ay⟩ := hd
    rw [emitInner]
    dsimp only
    rw [List.mem_append]
    cases j with
    | zero =>
      left
      simp only [List.get] at hp ⊢
      rw [if_pos hp]
      simp
    | succ j' =>
      right
      have hj' : j' < tl.length := by simpa using hj
      have hp' : 0 < ddProb ebt sumOut sumIn degx (tl.get ⟨j', hj'⟩).1 := hp
      have hmem := ih (cy + ay) j' hj' hp'
      have he1 : cy + ((((degy, ay) :: tl).take (j' + 1)).map Prod.snd).sum =
          cy + ay + ((tl.take j').map Prod.snd).sum := by
        rw [List.take_succ_cons]
        simp only [List.map_cons, List.sum_cons]
        omega
      have he2 : (((degy, ay) :: tl).get ⟨j' + 1, hj⟩) = tl.get ⟨j', hj'⟩ := rfl
      rw [he2, he1]
      exact hmem

theorem emitOuter_all_pos (ebt sumOut sumIn : ℕ) (ins : List (ℕ × ℕ)) (y0 : ℕ)
    (outs : List (ℕ × ℕ)) (cx : ℕ) :
    ∀ b ∈ (emitOuter ebt sumOut sumIn ins y0 outs cx).1,
      0 < b.expression_probability := by
  induction outs generalizing cx with
  | nil => intro b hb; simp [emitOuter] at hb
  | cons hd tl ih =>
    obtain ⟨degx, ax⟩ := hd
    intro b hb
    rw [emitOuter] at hb
    simp only [List.mem_append] at hb
    rcases hb with hb | hb
    · exact emitInner_all_pos ebt sumOut sumIn degx ax cx ins y0 b hb
    · exact ih (cx + ax) b hb

theorem emitOuter_fail_count (ebt sumOut sumIn : ℕ) (ins : List (ℕ × ℕ)) (y0 : ℕ)
    (outs : List (ℕ × ℕ)) (cx : ℕ) :
    (emitOuter ebt sumOut sumIn ins y0 outs cx).2 =
      ((emitOuter ebt sumOut sumIn ins y0 outs cx).1.filter
        (fun b => 1 < b.expression_probability)).length := by
  induction outs generalizing cx with
  | nil => simp [emitOuter]
  | cons hd tl ih =>
    obtain ⟨degx, ax⟩ := hd
    rw [emitOuter]
    dsimp only
    rw [List.filter_append, List.length_append, ← ih (cx + ax),
      ← emitInner_fail_count ebt sumOut sumIn degx ax cx ins y0]

theorem emitOuter_mem (ebt sumOut sumIn : ℕ) (ins : List (ℕ × ℕ)) (y0 : ℕ)
    (outs : List (ℕ × ℕ)) (cx : ℕ) (i j : ℕ)
    (hi : i < outs.length) (hj : j < ins.length)
    (hp : 0 < ddProb ebt sumOut sumIn (outs.get ⟨i, hi⟩).1 (ins.get ⟨j, hj⟩).1) :
    (⟨((cx + ((outs.take i).map Prod.snd).sum : ℕ) : ℚ),
        ((cx + ((outs.take i).map Prod.snd).sum + (outs.get ⟨i, hi⟩).2 : ℕ) : ℚ),
        ((y0 + ((ins.take j).map Prod.snd).sum : ℕ) : ℚ),
        ((y0 + ((ins.take j).map Prod.snd).sum + (ins.get ⟨j, hj⟩).2 : ℕ) : ℚ),
        ddProb ebt sumOut sumIn (outs.get ⟨i, hi⟩).1 (ins.get ⟨j, hj⟩).1⟩ :
      Edge_Block) ∈ (emitOuter ebt sumOut sumIn ins y0 outs cx).1 := by
  induction outs generalizing cx i with
  | nil => exact absurd hi (by simp)
  | cons hd tl ih =>
    obtain ⟨degx, ax⟩ := hd
    rw [emitOuter]
    dsimp only
    rw [List.mem_append]
    cases i with
    | zero =>
      left
      have := emitInner_mem ebt sumOut sumIn degx ax cx ins y0 j hj hp
      simpa using this
    | succ i' =>
      right
      have hi' : i' < tl.length := by simpa using hi
      have hmem := ih (cx + ax) i' hi' hp
      have he1 : cx + ((((degx, ax) :: tl).take (i' + 1)).map Prod.snd).sum =
          cx + ax + ((tl.take i').map Prod.snd).sum := by
        rw [List.take_succ_cons]
        simp only [List.map_cons, List.sum_cons]
        omega
      have he2 : (((degx, ax) :: tl).get ⟨i' + 1, hi⟩) = tl.get ⟨i', hi'⟩ := rfl
      rw [he2, he1]
      exact hmem

theorem emitY_all_pos (e : String) (sbm : String → String × String → ℕ)
    (cx_ctr : Node_Type_Container) (x0 : ℕ) (l : List Node_Type_Container) (y0 : ℕ) :
    ∀ b ∈ (emitY e sbm cx_ctr x0 l y0).1, 0 < b.expression_probability := by
  induction l generalizing y0 with
  | nil => intro b hb; simp [emitY] at hb
  | cons c rest ih =>
    intro b hb
    rw [emitY] at hb
    by_cases hg : c.hasET e = false ∨ (c.getET e).number_of_nodes_with_in_degree = 0
    · rw [if_pos hg] at hb
      exact ih (y0 + c.node_count) b hb
    · rw [if_neg hg] at hb
      simp only [List.mem_append] at hb
      rcases hb with hb | hb
      · exact emitOuter_all_pos _ _ _ _ _ _ _ b hb
      · exact ih (y0 + c.node_count) b hb

theorem emitY_fail_count (e : String) (sbm : String → String × String → ℕ)
    (cx_ctr : Node_Type_Container) (x0 : ℕ) (l : List Node_Type_Container) (y0 : ℕ) :
    (emitY e sbm cx_ctr x0 l y0).2 =
      ((emitY e sbm cx_ctr x0 l y0).1.filter
        (fun b => 1 < b.expression_probability)).length := by
  induction l generalizing y0 with
  | nil => simp [emitY]
  | cons c rest ih =>
    rw [emitY]
    by_cases hg : c.hasET e = false ∨ (c.getET e).number_of_nodes_with_in_degree = 0
    · rw [if_pos hg]
      exact ih (y0 + c.node_count)
    · rw [if_neg hg]
      dsimp only
      rw [List.filter_append, List.length_append, ← ih (y0 + c.node_count),
        ← emitOuter_fail_count]

theorem emitY_mem (e : String) (sbm : String → String × String → ℕ)
    (cx_ctr : Node_Type_Container) (x0 : ℕ) (l : List Node_Type_Container)
    (y0 : ℕ) (iy : ℕ) (hiy : iy < l.length)
    (hg : ¬ ((l.get ⟨iy, hiy⟩).hasET e = false ∨
      ((l.get ⟨iy, hiy⟩).getET e).number_of_nodes_with_in_degree = 0))
    (b : Edge_Block)
    (hb : b ∈ (emitOuter (sbm e (cx_ctr.node_type, (l.get ⟨iy, hiy⟩).node_type))
        (cx_ctr.getET e).sum_of_out_degrees
        ((l.get ⟨iy, hiy⟩).getET e).sum_of_in_degrees
        ((l.get ⟨iy, hiy⟩).getET e).in_degrees
        (y0 + ((l.take iy).map Node_Type_Container.node_count).sum)
        (cx_ctr.getET e).out_degrees x0).1) :
    b ∈ (emitY e sbm cx_ctr x0 l y0).1 := by
  induction l generalizing y0 iy with
  | nil => exact absurd hiy (by simp)
  | cons c rest ih =>
    rw [emitY]
    cases iy with
    | zero =>
      simp only [List.get] at hg hb
      rw [if_neg hg]
      dsimp only
      rw [List.mem_append]
      left
      simpa using hb
    | succ iy' =>
      have hiy' : iy' < rest.length := by simpa using hiy
      have hg' : ¬ ((rest.get ⟨iy', hiy'⟩).hasET e = false ∨
          ((rest.get ⟨iy', hiy'⟩).getET e).number_of_nodes_with_in_degree = 0) := hg
      have hsum : y0 + (((c :: rest).take (iy' + 1)).map
            Node_Type_Container.node_count).sum =
          y0 + c.node_count + ((rest.take iy').map Node_Type_Container.node_count).sum := by
        rw [List.take_succ_cons]
        simp only [List.map_cons, List.sum_cons]
        omega
      rw [hsum] at hb
      have hb' := ih (y0 + c.node_count) iy' hiy' hg' hb
      by_cases hgc : c.hasET e = false ∨ (c.getET e).number_of_nodes_with_in_degree = 0
      · rw [if_pos hgc]
        exact hb'
      · rw [if_neg hgc]
        dsimp only
        rw [List.mem_append]
        right
        exact hb'

theorem emitX_all_pos (e : String) (sbm : String → String × String → ℕ)
    (work : List Node_Type_Container) (l : List Node_Type_Container) (x0 : ℕ) :
    ∀ b ∈ (emitX e sbm work l x0).1, 0 < b.expression_probability := by
  induction l generalizing x0 with
  | nil => intro b hb; simp [emitX] at hb
  | cons c rest ih =>
    intro b hb
    rw [emitX] at hb
    by_cases hg : c.hasET e = false ∨ (c.getET e).number_of_nodes_with_out_degree = 0
    · rw [if_pos hg] at hb
      exact ih (x0 + c.node_count) b hb
    · rw [if_neg hg] at hb
      simp only [List.mem_append] at hb
      rcases hb with hb | hb
      · exact emitY_all_pos _ _ _ _ _ _ b hb
      · exact ih (x0 + c.node_count) b hb

theorem emitX_fail_count (e : String) (sbm : String → String × String → ℕ)
    (work : List Node_Type_Container) (l : List Node_Type_Container) (x0 : ℕ) :
    (emitX e sbm work l x0).2 =
      ((emitX e sbm work l x0).1.filter
        (fun b => 1 < b.expression_probability)).length := by
  induction l generalizing x0 with
  | nil => simp [emitX]
  | cons c rest ih =>
    rw [emitX]
    by_cases hg : c.hasET e = false ∨ (c.getET e).number_of_nodes_with_out_degree = 0
    · rw [if_pos hg]
      exact ih (x0 + c.node_count)
    · rw [if_neg hg]
      dsimp only
      rw [List.filter_append, List.length_append, ← ih (x0 + c.node_count),
        ← emitY_fail_count]

theorem emitX_mem (e : String) (sbm : String → String × String → ℕ)
    (work : List Node_Type_Container) (l : List Node_Type_Container)
    (x0 : ℕ) (ix : ℕ) (hix : ix < l.length)
    (hg : ¬ ((l.get ⟨ix, hix⟩).hasET e = false ∨
      ((l.get ⟨ix, hix⟩).getET e).number_of_nodes_with_out_degree = 0))
    (b : Edge_Block)
    (hb : b ∈ (emitY e sbm (l.get ⟨ix, hix⟩)
        (x0 + ((l.take ix).map Node_Type_Container.node_count).sum) work 0).1) :
    b ∈ (emitX e sbm work l x0).1 := by
  induction l generalizing x0 ix with
  | nil => exact absurd hix (by simp)
  | cons c rest ih =>
    rw [emitX]
    cases ix with
    | zero =>
      simp only [List.get] at hg hb
      rw [if_neg hg]
      dsimp only
      rw [List.mem_append]
      left
      simpa using hb
    | succ ix' =>
      have hix' : ix' < rest.length := by simpa using hix
      have hg' : ¬ ((rest.get ⟨ix', hix'⟩).hasET e = false ∨
          ((rest.get ⟨ix', hix'⟩).getET e).number_of_nodes_with_out_degree = 0) := hg
      have hsum : x0 + (((c :: rest).take (ix' + 1)).map
            Node_Type_Container.node_count).sum =
          x0 + c.node_count + ((rest.take ix').map Node_Type_Container.node_count).sum := by
        rw [List.take_succ_cons]
        simp only [List.map_cons, List.sum_cons]
        omega
      rw [hsum] at hb
      have hb' := ih (x0 + c.node_count) ix' hix' hg' hb
      by_cases hgc : c.hasET e = false ∨ (c.getET e).number_of_nodes_with_out_degree = 0
      · rw [if_pos hgc]
        exact hb'
      · rw [if_neg hgc]
        dsimp only
        rw [List.mem_append]
        right
        exact hb'

/-- Claim C2: for a fitted work-container state and edge type e, the compiled
record for e (i) contains only blocks with positive probability (p = 0 blocks
are omitted), (ii) counts exactly the stored blocks with p > 1 as model
failures while storing them with the raw unclamped probability, and (iii) for
every source container tX (index ix) with at least one node of nonzero
out-degree for e and destination container tY (index iy) with at least one
node of nonzero in-degree for e — the code guards, whose number fields hold
the counts accumulated from the degree distributions — and every pair of a
shuffled out-degree entry i of (tX, e) and in-degree entry j of (tY, e), a
block of width amount_x and height amount_y is emitted at the cursor position
inside the assigned type regions with probability
p = edges(e, tX, tY) * deg_x / sum_out * deg_y / sum_in, where the sums range
over the degree lists. -/
theorem processEdgeType_spec (e : String) (sbm : String → String × String → ℕ)
    (work : List Node_Type_Container) (ix iy : ℕ)
    (hix : ix < work.length) (hiy : iy < work.length)
    (hgx : ¬ ((work.get ⟨ix, hix⟩).hasET e = false ∨
      ((work.get ⟨ix, hix⟩).getET e).number_of_nodes_with_out_degree = 0))
    (hgy : ¬ ((work.get ⟨iy, hiy⟩).hasET e = false ∨
      ((work.get ⟨iy, hiy⟩).getET e).number_of_nodes_with_in_degree = 0))
    (hso : ((work.get ⟨ix, hix⟩).getET e).sum_of_out_degrees =
      ((((work.get ⟨ix, hix⟩).getET e).out_degrees).map (fun q => q.1 * q.2)).sum)
    (hsi : ((work.get ⟨iy, hiy⟩).getET e).sum_of_in_degrees =
      ((((work.get ⟨iy, hiy⟩).getET e).in_degrees).map (fun q => q.1 * q.2)).sum)
    (i j : ℕ)
    (hi : i < ((work.get ⟨ix, hix⟩).getET e).out_degrees.length)
    (hj : j < ((work.get ⟨iy, hiy⟩).getET e).in_degrees.length) :
    (∀ b ∈ (processEdgeType e sbm work).1.blocks, 0 < b.expression_probability) ∧
      (processEdgeType e sbm work).2 =
        ((processEdgeType e sbm work).1.blocks.filter
          (fun b => 1 < b.expression_probability)).length ∧
      (0 < (sbm e ((work.get ⟨ix, hix⟩).node_type,
            (work.get ⟨iy, hiy⟩).node_type) : ℚ) *
          (((((work.get ⟨ix, hix⟩).getET e).out_degrees.get ⟨i, hi⟩).1 : ℚ) /
            ((((((work.get ⟨ix, hix⟩).getET e).out_degrees).map
              (fun q => q.1 * q.2)).sum : ℕ) : ℚ)) *
          (((((work.get ⟨iy, hiy⟩).getET e).in_degrees.get ⟨j, hj⟩).1 : ℚ) /
            ((((((work.get ⟨iy, hiy⟩).getET e).in_degrees).map
              (fun q => q.1 * q.2)).sum : ℕ) : ℚ)) →
        (⟨((((work.take ix).map Node_Type_Container.node_count).sum +
              ((((work.get ⟨ix, hix⟩).getET e).out_degrees.take i).map
                Prod.snd).sum : ℕ) : ℚ),
          ((((work.take ix).map Node_Type_Container.node_count).sum +
              ((((work.get ⟨ix, hix⟩).getET e).out_degrees.take i).map
                Prod.snd).sum +
              (((work.get ⟨ix, hix⟩).getET e).out_degrees.get ⟨i, hi⟩).2 : ℕ) : ℚ),
          ((((work.take iy).map Node_Type_Container.node_count).sum +
              ((((work.get ⟨iy, hiy⟩).getET e).in_degrees.take j).map
                Prod.snd).sum : ℕ) : ℚ),
          ((((work.take iy).map Node_Type_Container.node_count).sum +
              ((((work.get ⟨iy, hiy⟩).getET e).in_degrees.take j).map
                Prod.snd).sum +
              (((work.get ⟨iy, hiy⟩).getET e).in_degrees.get ⟨j, hj⟩).2 : ℕ) : ℚ),
          (sbm e ((work.get ⟨ix, hix⟩).node_type,
              (work.get ⟨iy, hiy⟩).node_type) : ℚ) *
            (((((work.get ⟨ix, hix⟩).getET e).out_degrees.get ⟨i, hi⟩).1 : ℚ) /
              ((((((work.get ⟨ix, hix⟩).getET e).out_degrees).map
                (fun q => q.1 * q.2)).sum : ℕ) : ℚ)) *
            (((((work.get ⟨iy, hiy⟩).getET e).in_degrees.get ⟨j, hj⟩).1 : ℚ) /
              ((((((work.get ⟨iy, hiy⟩).getET e).in_degrees).map
                (fun q => q.1 * q.2)).sum : ℕ) : ℚ))⟩ : Edge_Block) ∈
          (processEdgeType e sbm work).1.blocks) := by
  have hperm : List.Perm (sortBlocks (emitX e sbm work work 0).1) (emitX e sbm work work 0).1 :=
    List.perm_insertionSort _ _
  have hblocks : (processEdgeType e sbm work).1.blocks =
      sortBlocks (emitX e sbm work work 0).1 := rfl
  have hfails : (processEdgeType e sbm work).2 = (emitX e sbm work work 0).2 := rfl
  refine ⟨?_, ?_, ?_⟩
  · intro b hb
    rw [hblocks] at hb
    exact emitX_all_pos e sbm work work 0 b (hperm.mem_iff.mp hb)
  · rw [hblocks, hfails, emitX_fail_count]
    exact ((hperm.filter _).length_eq).symm
  · intro hp
    rw [hblocks]
    apply hperm.mem_iff.mpr
    set soF := ((work.get ⟨ix, hix⟩).getET e).sum_of_out_degrees with hsoF
    set siF := ((work.get ⟨iy, hiy⟩).getET e).sum_of_in_degrees with hsiF
    have hso0 : 0 < soF := by
      rcases Nat.eq_zero_or_pos soF with h0 | h0
      · exfalso
        rw [hso] at h0
        rw [h0] at hp
        simp at hp
      · exact h0
    have hsi0 : 0 < siF := by
      rcases Nat.eq_zero_or_pos siF with h0 | h0
      · exfalso
        rw [hsi] at h0
        rw [h0] at hp
        simp at hp
      · exact h0
    have hdd : ddProb (sbm e ((work.get ⟨ix, hix⟩).node_type,
          (work.get ⟨iy, hiy⟩).node_type)) soF siF
          (((work.get ⟨ix, hix⟩).getET e).out_degrees.get ⟨i, hi⟩).1
          (((work.get ⟨iy, hiy⟩).getET e).in_degrees.get ⟨j, hj⟩).1 =
        (sbm e ((work.get ⟨ix, hix⟩).node_type,
            (work.get ⟨iy, hiy⟩).node_type) : ℚ) *
          (((((work.get ⟨ix, hix⟩).getET e).out_degrees.get ⟨i, hi⟩).1 : ℚ) /
            ((((((work.get ⟨ix, hix⟩).getET e).out_degrees).map
              (fun q => q.1 * q.2)).sum : ℕ) : ℚ)) *
          (((((work.get ⟨iy, hiy⟩).getET e).in_degrees.get ⟨j, hj⟩).1 : ℚ) /
            ((((((work.get ⟨iy, hiy⟩).getET e).in_degrees).map
              (fun q => q.1 * q.2)).sum : ℕ) : ℚ)) := by
      unfold ddProb
      rw [if_pos ⟨hso0, hsi0⟩, hso, hsi]
    have hp' : 0 < ddProb (sbm e ((work.get ⟨ix, hix⟩).node_type,
        (work.get ⟨iy, hiy⟩).node_type)) soF siF
        (((work.get ⟨ix, hix⟩).getET e).out_degrees.get ⟨i, hi⟩).1
        (((work.get ⟨iy, hiy⟩).getET e).in_degrees.get ⟨j, hj⟩).1 := by
      rw [hdd]
      exact hp
    have hmemO := emitOuter_mem (sbm e ((work.get ⟨ix, hix⟩).node_type,
        (work.get ⟨iy, hiy⟩).node_type)) soF siF
      ((work.get ⟨iy, hiy⟩).getET e).in_degrees
      (0 + ((work.take iy).map Node_Type_Container.node_count).sum)
      ((work.get ⟨ix, hix⟩).getET e).out_degrees
      (0 + ((work.take ix).map Node_Type_Container.node_count).sum)
      i j hi hj hp'
    have hmemY := emitY_mem e sbm (work.get ⟨ix, hix⟩)
      (0 + ((work.take ix).map Node_Type_Container.node_count).sum)
      work 0 iy hiy hgy _ hmemO
    have hmemX := emitX_mem e sbm work work 0 ix hix hgx _ hmemY
    rw [hdd] at hmemX
    simpa using hmemX

/-- Concrete fitted state for the block-emission witness: one node type with
two nodes, one of in- and out-degree 1 each and one padded zero-degree node. -/
def c2Work : List Node_Type_Container :=
  [⟨2, "T", [("e", ⟨1, 1, 1, 1, [(1, 1), (0, 1)], [(1, 1), (0, 1)]⟩)]⟩]

/-- Witness for claim C2: the block-emission theorem applied to the concrete
fitted state c2Work at the degree pair (i, j) = (0, 0). -/
theorem processEdgeType_spec_witness :
    (∀ b ∈ (processEdgeType "e" (fun _ _ => 1) c2Work).1.blocks,
      0 < b.expression_probability) ∧
      (processEdgeType "e" (fun _ _ => 1) c2Work).2 =
        ((processEdgeType "e" (fun _ _ => 1) c2Work).1.blocks.filter
          (fun b => 1 < b.expression_probability)).length ∧
      (0 < ((1 : ℕ) : ℚ) * (((1 : ℕ) : ℚ) / ((1 : ℕ) : ℚ)) *
          (((1 : ℕ) : ℚ) / ((1 : ℕ) : ℚ)) →
        (⟨((0 : ℕ) : ℚ), ((1 : ℕ) : ℚ), ((0 : ℕ) : ℚ), ((1 : ℕ) : ℚ),
          ((1 : ℕ) : ℚ) * (((1 : ℕ) : ℚ) / ((1 : ℕ) : ℚ)) *
            (((1 : ℕ) : ℚ) / ((1 : ℕ) : ℚ))⟩ : Edge_Block) ∈
          (processEdgeType "e" (fun _ _ => 1) c2Work).1.blocks) :=
  processEdgeType_spec "e" (fun _ _ => 1) c2Work 0 0 (by decide) (by decide)
    (by decide) (by decide) (by decide) (by decide) 0 0 (by decide) (by decide)

/-! ## M1 codec (m1ModelFormat.cpp, read_m1_file / write_m1_file) -/

/-- Line splitting as std::getline produces it: the file text split at every
newline (a trailing newline yields one final empty piece, which the reader
skips as an empty line). -/
def splitOnC (sep : Char) : Str → List Str
  | [] => [[]]
  | c :: t =>
    match splitOnC sep t with
    | [] => [[]]
    | h :: r => if c = sep then [] :: h :: r else (c :: h) :: r

/-- Field extraction as std::getline with a delimiter: the text before the
first delimiter and the remainder after it (empty when the delimiter is
absent, as a failed getline leaves an empty string). -/
def splitFirst (sep : Char) : Str → Str × Str
  | [] => ([], [])
  | c :: t =>
    if c = sep then ([], t)
    else ((c :: (splitFirst sep t).1), (splitFirst sep t).2)

/-- Boolean prefix test (starts_with). -/
def hasPfx : Str → Str → Bool
  | [], _ => true
  | _ :: _, [] => false
  | a :: pas, b :: bs => a = b && hasPfx pas bs

/-- Trailing carriage-return removal performed on every line. -/
def stripCR (l : Str) : Str :=
  if l.getLast? = some '\r' then l.dropLast else l

/-- The edge type extracted from an EDGES directive: substr(find('=') + 1),
which is the text after the first equals sign — or, through the npos + 1 = 0
wrap-around, the whole line when it contains none. -/
def afterFirstEq (l : Str) : Str :=
  if '=' ∈ l then (splitFirst '=' l).2 else l

/-- Reader modes of read_m1_file. -/
inductive RMode where
  | mnone : RMode
  | mmeta : RMode
  | mnodes : RMode
  | medges : RMode
deriving DecidableEq, Repr

/-- Parser state of read_m1_file. -/
structure RState where
  mode : RMode
  name : String
  values : List (String × String)
  has_meta : Bool
  nodes : List Node_Record
  has_node : Bool
  cur_type : String
  cur_blocks : List Edge_Block
  edges : List Edge_Record
  has_edges : Bool
deriving Repr

/-- Processing of one line of an M1 file, mirroring the while loop of
read_m1_file: directives switch the mode (flushing the pending edge record on
a new EDGES directive, rejecting unknown directives), data lines are parsed
according to the mode with malformed lines skipped, and data before any
directive is fatal. -/
def stepLine (st : RState) (line0 : Str) : Except String RState :=
  let line := stripCR line0
  if line = [] then Except.ok st
  else if hasPfx ['#'] line then
    if hasPfx (("# META").data) line then Except.ok { st with mode := RMode.mmeta }
    else if hasPfx (("# NODES").data) line then Except.ok { st with mode := RMode.mnodes }
    else if hasPfx (("# EDGES").data) line then
      Except.ok { st with
        mode := RMode.medges,
        edges := if st.cur_blocks ≠ [] then st.edges ++ [⟨st.cur_type, st.cur_blocks⟩]
          else st.edges,
        has_edges := if st.cur_blocks ≠ [] then true else st.has_edges,
        cur_type := String.mk (afterFirstEq line),
        cur_blocks := [] }
    else Except.error "Encountered unexpected directive while parsing m1-file."
  else
    match st.mode with
    | RMode.mnone => Except.error "Encountered unexpected line in mode NONE."
    | RMode.mmeta =>
      let kv := splitFirst '=' line
      if kv.1 = [] ∨ kv.2 = [] then Except.ok st
      else if kv.1 = ("NAME").data then
        Except.ok { st with name := String.mk kv.2, has_meta := true }
      else
        Except.ok { st with values := mapInsert st.values (String.mk kv.1) (String.mk kv.2) }
    | RMode.mnodes =>
      let f1 := splitFirst ',' line
      let f2 := splitFirst ',' f1.2
      if f1.1 = [] ∨ f2.1 = [] ∨ f2.2 = [] then Except.ok st
      else
        match parseDecChars f1.1, parseDecChars f2.1 with
        | some sv, some ev =>
          Except.ok { st with
            nodes := st.nodes ++ [⟨sv, ev, String.mk f2.2⟩]
            has_node := true }
        | _, _ => Except.ok st
    | RMode.medges =>
      let f1 := splitFirst ',' line
      let f2 := splitFirst ',' f1.2
      let f3 := splitFirst ',' f2.2
      let f4 := splitFirst ',' f3.2
      if f1.1 = [] ∨ f2.1 = [] ∨ f3.1 = [] ∨ f4.1 = [] ∨ f4.2 = [] then Except.ok st
      else
        match parseDecChars f1.1, parseDecChars f2.1, parseDecChars f3.1,
            parseDecChars f4.1 with
        | some x1, some x2, some y1, some y2 =>
          match parseDecChars f4.2 with
          | some pv =>
            Except.ok { st with cur_blocks := st.cur_blocks ++ [⟨x1, x2, y1, y2, pv⟩] }
          | none => Except.ok st
        | _, _, _, _ => Except.ok st

/-- Final flush and validity checks of read_m1_file: the pending edge record
is saved, then a missing META (NAME), NODES or EDGES section is fatal. -/
def finalizeR (st : RState) : Except String m1_data :=
  let edges' := if st.cur_blocks ≠ [] then st.edges ++ [⟨st.cur_type, st.cur_blocks⟩]
    else st.edges
  let has_edges' := if st.cur_blocks ≠ [] then true else st.has_edges
  if st.has_meta = false then
    Except.error "missing a valid META-Section with at least a NAME declaration."
  else if st.has_node = false then
    Except.error "missing a valid NODES-Section with at least one node type."
  else if has_edges' = false then
    Except.error "missing a valid EDGES-Section with at least an edge type."
  else Except.ok ⟨⟨st.name, st.values⟩, st.nodes, edges'⟩

/-- Initial parser state. -/
def initR : RState := ⟨RMode.mnone, "", [], false, [], false, "", [], [], false⟩

/-- Embedding of read_m1_file: the file text is cut into lines and folded
through the line parser, then finalized. -/
def read_m1 (file : Str) : Except String m1_data := do
  let st ← (splitOnC '\n' file).foldlM stepLine initR
  finalizeR st

/-- Characters of one serialized node row. -/
def nodeLineChars (n : Node_Record) : Str :=
  fmt6Chars n.startID ++ ',' :: fmt6Chars n.endID ++ ',' :: n.node_type.data

/-- Characters of one serialized edge-block row. -/
def blockLineChars (b : Edge_Block) : Str :=
  fmt6Chars b.startX ++ ',' :: fmt6Chars b.endX ++ ',' :: fmt6Chars b.startY ++
    ',' :: fmt6Chars b.endY ++ ',' :: fmt6Chars b.expression_probability

/-- Characters of one serialized meta key-value row. -/
def metaLineChars (kv : String × String) : Str := kv.1.data ++ '=' :: kv.2.data

/-- Lines of one serialized EDGES section: the directive with the edge type,
the block rows, and the closing blank line. -/
def edgeSectionLines (er : Edge_Record) : List Str :=
  ((("# EDGES=").data ++ er.edge_type.data) ::
    (er.blocks.map blockLineChars ++ [[]]))

/-- Lines written by write_m1_file, in order: the META section with the NAME
row first, a blank line, the NODES section, a blank line, and one EDGES
section per edge record each followed by a blank line. -/
def writeLines (data : m1_data) : List Str :=
  (("# META").data) :: ((("NAME=").data ++ data.meta.name.data)) ::
    (data.meta.values.map metaLineChars ++ [[]] ++
      ((("# NODES").data) :: (data.nodes.map nodeLineChars ++ [[]] ++
        (data.edges.flatMap edgeSectionLines))))

/-- Validity checks of write_m1_file: equals signs are rejected inside meta
keys, newline characters inside meta keys and values, node types and edge
types. -/
def writeChecks (data : m1_data) : Bool :=
  data.meta.values.all (fun kv =>
    decide ('=' ∉ kv.1.data) && decide ('\n' ∉ kv.1.data) &&
      decide ('\n' ∉ kv.2.data)) &&
  data.nodes.all (fun n => decide ('\n' ∉ n.node_type.data)) &&
  data.edges.all (fun er => decide ('\n' ∉ er.edge_type.data))

/-- Embedding of write_m1_file: after the validity checks the lines are
written, each terminated by a newline. -/
def write_m1 (data : m1_data) : Except String Str :=
  if writeChecks data then
    Except.ok ((writeLines data).map (fun l => l ++ ['\n'])).flatten
  else Except.error "invalid characters in model strings."

/-- Success test for the embedded exceptions. -/
def isOkE {α : Type} : Except String α → Bool
  | Except.ok _ => true
  | Except.error _ => false

/-! ## Specification-side scan of an M1 file (for the error contract of the
reader): tracks the section mode, records whether a NAME entry, a valid node
row and a valid edge-block row were seen, collects the successfully parsed
records, and notes whether a fatal line (an unknown directive, or data before
any directive) occurs.  Once a fatal line is hit the scan freezes, matching
the reader, which throws there. -/

structure ScanState where
  mode : RMode
  bad : Bool
  nameSeen : Bool
  lastName : String
  metaValues : List (String × String)
  nodeRows : List Node_Record
  edgeRecs : List Edge_Record
  curType : String
  curBlocks : List Edge_Block
deriving Repr

/-- One line of the specification-side scan. -/
def scanLine (s : ScanState) (line0 : Str) : ScanState :=
  if s.bad = true then s
  else
    let line := stripCR line0
    if line = [] then s
    else if hasPfx ['#'] line then
      if hasPfx (("# META").data) line then { s with mode := RMode.mmeta }
      else if hasPfx (("# NODES").data) line then { s with mode := RMode.mnodes }
      else if hasPfx (("# EDGES").data) line then
        { s with
          mode := RMode.medges,
          edgeRecs := if s.curBlocks ≠ [] then s.edgeRecs ++ [⟨s.curType, s.curBlocks⟩]
            else s.edgeRecs,
          curType := String.mk (afterFirstEq line),
          curBlocks := [] }
      else { s with bad := true }
    else
      match s.mode with
      | RMode.mnone => { s with bad := true }
      | RMode.mmeta =>
        let kv := splitFirst '=' line
        if kv.1 = [] ∨ kv.2 = [] then s
        else if kv.1 = ("NAME").data then
          { s with nameSeen := true, lastName := String.mk kv.2 }
        else
          { s with metaValues := mapInsert s.metaValues (String.mk kv.1) (String.mk kv.2) }
      | RMode.mnodes =>
        let f1 := splitFirst ',' line
        let f2 := splitFirst ',' f1.2
        if f1.1 = [] ∨ f2.1 = [] ∨ f2.2 = [] then s
        else
          match parseDecChars f1.1, parseDecChars f2.1 with
          | some sv, some ev =>
            { s with nodeRows := s.nodeRows ++ [⟨sv, ev, String.mk f2.2⟩] }
          | _, _ => s
      | RMode.medges =>
        let f1 := splitFirst ',' line
        let f2 := splitFirst ',' f1.2
        let f3 := splitFirst ',' f2.2
        let f4 := splitFirst ',' f3.2
        if f1.1 = [] ∨ f2.1 = [] ∨ f3.1 = [] ∨ f4.1 = [] ∨ f4.2 = [] then s
        else
          match parseDecChars f1.1, parseDecChars f2.1, parseDecChars f3.1,
              parseDecChars f4.1 with
          | some x1, some x2, some y1, some y2 =>
            match parseDecChars f4.2 with
            | some pv => { s with curBlocks := s.curBlocks ++ [⟨x1, x2, y1, y2, pv⟩] }
            | none => s
          | _, _, _, _ => s

/-- Initial scan state. -/
def initScan : ScanState := ⟨RMode.mnone, false, false, "", [], [], [], "", []⟩

/-- Specification-side scan of a whole file. -/
def m1Scan (file : Str) : ScanState := (splitOnC '\n' file).foldl scanLine initScan

/-- The edge records of a finished scan, grouped under their headings: the
completed sections with the block rows of the last open heading closed off as
one more record. -/
def scanEdges (s : ScanState) : List Edge_Record :=
  if s.curBlocks ≠ [] then s.edgeRecs ++ [⟨s.curType, s.curBlocks⟩] else s.edgeRecs

/-- Relation between the reader state and the scan state on the error-free
trace: same mode, same flags (the reader flags coincide with nonemptiness of
the collected rows respectively completed sections), same collected records:
name, meta pairs, node rows, completed edge sections, and the heading and
block rows of the currently open EDGES section. -/
def PInv (st : RState) (s : ScanState) : Prop :=
  st.mode = s.mode ∧ st.has_meta = s.nameSeen ∧ st.name = s.lastName ∧
    st.values = s.metaValues ∧ st.nodes = s.nodeRows ∧
    (st.has_node = true ↔ s.nodeRows ≠ []) ∧
    st.cur_type = s.curType ∧ st.cur_blocks = s.curBlocks ∧
    st.edges = s.edgeRecs ∧
    (st.has_edges = true ↔ s.edgeRecs ≠ [])

theorem scanLine_frozen {s : ScanState} (h : s.bad = true) (line : Str) :
    scanLine s line = s := by
  unfold scanLine
  rw [if_pos h]

theorem scanFold_frozen {s : ScanState} (h : s.bad = true) (lines : List Str) :
    lines.foldl scanLine s = s := by
  induction lines with
  | nil => rfl
  | cons l t ih => rw [List.foldl_cons, scanLine_frozen h, ih]

theorem step_scan {st : RState} {s : ScanState} (hbad : s.bad = false)
    (hP : PInv st s) (line : Str) :
    (∀ st', stepLine st line = Except.ok st' →
      (scanLine s line).bad = false ∧ PInv st' (scanLine s line)) ∧
    (∀ e, stepLine st line = Except.error e → (scanLine s line).bad = true) := by
  obtain ⟨smode, sbad, snameSeen, slast, svals, snrows, serecs, sctyp, scblk⟩ := s
  obtain ⟨stmode, stname, stvals, sthm, stnodes, sthn, stct, stcb, stedges, sthe⟩ := st
  obtain ⟨hm, hnm, hname, hvals, hnodes, hhn, hct, hcb, hed, hhe⟩ := hP
  dsimp only at hm hnm hname hvals hnodes hhn hct hcb hed hhe hbad
  subst hm hnm hname hvals hnodes hct hcb hed hbad
  unfold stepLine scanLine
  dsimp only
  rw [if_neg Bool.false_ne_true]
  by_cases hemp : stripCR line = []
  · rw [if_pos hemp, if_pos hemp]
    constructor
    · intro st' h
      cases h
      exact ⟨rfl, rfl, rfl, rfl, rfl, rfl, hhn, rfl, rfl, rfl, hhe⟩
    · intro e h
      cases h
  · rw [if_neg hemp, if_neg hemp]
    by_cases hpound : hasPfx ['#'] (stripCR line) = true
    · rw [if_pos hpound, if_pos hpound]
      by_cases hdm : hasPfx (("# META").data) (stripCR line) = true
      · rw [if_pos hdm, if_pos hdm]
        constructor
        · intro st' h
          cases h
          exact ⟨rfl, rfl, rfl, rfl, rfl, rfl, hhn, rfl, rfl, rfl, hhe⟩
        · intro e h
          cases h
      · rw [if_neg hdm, if_neg hdm]
        by_cases hdn : hasPfx (("# NODES").data) (stripCR line) = true
        · rw [if_pos hdn, if_pos hdn]
          constructor
          · intro st' h
            cases h
            exact ⟨rfl, rfl, rfl, rfl, rfl, rfl, hhn, rfl, rfl, rfl, hhe⟩
          · intro e h
            cases h
        · rw [if_neg hdn, if_neg hdn]
          by_cases hde : hasPfx (("# EDGES").data) (stripCR line) = true
          · rw [if_pos hde, if_pos hde]
            constructor
            · intro st' h
              cases h
              refine ⟨rfl, rfl, rfl, rfl, rfl, rfl, hhn, rfl, rfl, rfl, ?_⟩
              dsimp only
              by_cases hcb2 : stcb ≠ []
              · rw [if_pos hcb2, if_pos hcb2]
                simp
              · rw [if_neg hcb2, if_neg hcb2]
                exact hhe
            · intro e h
              cases h
          · rw [if_neg hde, if_neg hde]
            constructor
            · intro st' h
              cases h
            · intro e h
              exact rfl
    · rw [if_neg hpound, if_neg hpound]
      cases stmode with
      | mnone =>
        constructor
        · intro st' h
          cases h
        · intro e h
          exact rfl
      | mmeta =>
        dsimp only
        by_cases hkv : (splitFirst '=' (stripCR line)).1 = [] ∨
            (splitFirst '=' (stripCR line)).2 = []
        · rw [if_pos hkv, if_pos hkv]
          constructor
          · intro st' h
            cases h
            exact ⟨rfl, rfl, rfl, rfl, rfl, rfl, hhn, rfl, rfl, rfl, hhe⟩
          · intro e h
            cases h
        · rw [if_neg hkv, if_neg hkv]
          by_cases hn : (splitFirst '=' (stripCR line)).1 = ("NAME").data
          · rw [if_pos hn, if_pos hn]
            constructor
            · intro st' h
              cases h
              exact ⟨rfl, rfl, rfl, rfl, rfl, rfl, hhn, rfl, rfl, rfl, hhe⟩
            · intro e h
              cases h
          · rw [if_neg hn, if_neg hn]
            constructor
            · intro st' h
              cases h
              exact ⟨rfl, rfl, rfl, rfl, rfl, rfl, hhn, rfl, rfl, rfl, hhe⟩
            · intro e h
              cases h
      | mnodes =>
        dsimp only
        by_cases hf : (splitFirst ',' (stripCR line)).1 = [] ∨
            (splitFirst ',' (splitFirst ',' (stripCR line)).2).1 = [] ∨
            (splitFirst ',' (splitFirst ',' (stripCR line)).2).2 = []
        · rw [if_pos hf, if_pos hf]
          constructor
          · intro st' h
            cases h
            exact ⟨rfl, rfl, rfl, rfl, rfl, rfl, hhn, rfl, rfl, rfl, hhe⟩
          · intro e h
            cases h
        · rw [if_neg hf, if_neg hf]
          cases hp1 : parseDecChars (splitFirst ',' (stripCR line)).1 with
          | none =>
            constructor
            · intro st' h
              cases h
              exact ⟨rfl, rfl, rfl, rfl, rfl, rfl, hhn, rfl, rfl, rfl, hhe⟩
            · intro e h
              cases h
          | some sv =>
            cases hp2 : parseDecChars (splitFirst ',' (splitFirst ',' (stripCR line)).2).1 with
            | none =>
              constructor
              · intro st' h
                cases h
                exact ⟨rfl, rfl, rfl, rfl, rfl, rfl, hhn, rfl, rfl, rfl, hhe⟩
              · intro e h
                cases h
            | some ev =>
              constructor
              · intro st' h
                cases h
                refine ⟨rfl, rfl, rfl, rfl, rfl, rfl, ?_, rfl, rfl, rfl, hhe⟩
                simp
              · intro e h
                cases h
      | medges =>
        dsimp only
        by_cases hf : (splitFirst ',' (stripCR line)).1 = [] ∨
            (splitFirst ',' (splitFirst ',' (stripCR line)).2).1 = [] ∨
            (splitFirst ',' (splitFirst ',' (splitFirst ',' (stripCR line)).2).2).1 = [] ∨
            (splitFirst ','
              (splitFirst ',' (splitFirst ',' (splitFirst ',' (stripCR line)).2).2).2).1 = [] ∨
            (splitFirst ','
              (splitFirst ',' (splitFirst ',' (splitFirst ',' (stripCR line)).2).2).2).2 = []
        · rw [if_pos hf, if_pos hf]
          constructor
          · intro st' h
            cases h
            exact ⟨rfl, rfl, rfl, rfl, rfl, rfl, hhn, rfl, rfl, rfl, hhe⟩
          · intro e h
            cases h
        · rw [if_neg hf, if_neg hf]
          cases hp1 : parseDecChars (splitFirst ',' (stripCR line)).1 with
          | none =>
            constructor
            · intro st' h
              cases h
              exact ⟨rfl, rfl, rfl, rfl, rfl, rfl, hhn, rfl, rfl, rfl, hhe⟩
            · intro e h
              cases h
          | some x1 =>
            cases hp2 : parseDecChars
                (splitFirst ',' (splitFirst ',' (stripCR line)).2).1 with
            | none =>
              constructor
              · intro st' h
                cases h
                exact ⟨rfl, rfl, rfl, rfl, rfl, rfl, hhn, rfl, rfl, rfl, hhe⟩
              · intro e h
                cases h
            | some x2 =>
              cases hp3 : parseDecChars
                  (splitFirst ',' (splitFirst ',' (splitFirst ',' (stripCR line)).2).2).1 with
              | none =>
                constructor
                · intro st' h
                  cases h
                  exact ⟨rfl, rfl, rfl, rfl, rfl, rfl, hhn, rfl, rfl, rfl, hhe⟩
                · intro e h
                  cases h
              | some y1 =>
                cases hp4 : parseDecChars (splitFirst ','
                    (splitFirst ',' (splitFirst ','
                      (splitFirst ',' (stripCR line)).2).2).2).1 with
                | none =>
                  constructor
                  · intro st' h
                    cases h
                    exact ⟨rfl, rfl, rfl, rfl, rfl, rfl, hhn, rfl, rfl, rfl, hhe⟩
                  · intro e h
                    cases h
                | some y2 =>
                  cases hp5 : parseDecChars (splitFirst ','
                      (splitFirst ',' (splitFirst ','
                        (splitFirst ',' (stripCR line)).2).2).2).2 with
                  | none =>
                    constructor
                    · intro st' h
                      cases h
                      exact ⟨rfl, rfl, rfl, rfl, rfl, rfl, hhn, rfl, rfl, rfl, hhe⟩
                    · intro e h
                      cases h
                  | some pv =>
                    constructor
                    · intro st' h
                      cases h
                      exact ⟨rfl, rfl, rfl, rfl, rfl, rfl, hhn, rfl, rfl, rfl, hhe⟩
                    · intro e h
                      cases h

theorem fold_scan (lines : List Str) : ∀ (st : RState) (s : ScanState),
    s.bad = false → PInv st s →
    (∀ st', lines.foldlM stepLine st = Except.ok st' →
      ((lines.foldl scanLine s).bad = false ∧
        PInv st' (lines.foldl scanLine s))) ∧
    (∀ e, lines.foldlM stepLine st = Except.error e →
      (lines.foldl scanLine s).bad = true) := by
  induction lines with
  | nil =>
    intro st s hb hP
    constructor
    · intro st' h
      simp only [List.foldlM_nil] at h
      cases h
      exact ⟨hb, hP⟩
    · intro e h
      simp only [List.foldlM_nil] at h
      cases h
  | cons l t ih =>
    intro st s hb hP
    have hstep := step_scan hb hP l
    cases hsl : stepLine st l with
    | ok st1 =>
      obtain ⟨hb1, hP1⟩ := hstep.1 st1 hsl
      have iht := ih st1 (scanLine s l) hb1 hP1
      constructor
      · intro st' h
        rw [List.foldlM_cons, hsl] at h
        rw [List.foldl_cons]
        exact iht.1 st' h
      · intro e h
        rw [List.foldlM_cons, hsl] at h
        rw [List.foldl_cons]
        exact iht.2 e h
    | error e0 =>
      have hsb := hstep.2 e0 hsl
      constructor
      · intro st' h
        rw [List.foldlM_cons, hsl] at h
        exact Except.noConfusion h
      · intro e h
        rw [List.foldl_cons, scanFold_frozen hsb]
        exact hsb

/-- Claim C7 (amended): deserialization of an M1 file is fatal exactly when
the file contains an unknown directive line or a nonempty data line before
the first section directive, or when it yields no NAME meta entry, no valid
node row, or no valid edge-block row under some edge-type heading; malformed
or incomplete data lines inside a section are skipped, and in the non-fatal
case the returned model contains exactly the successfully parsed records: the
last NAME value, the inserted meta pairs, the node rows in order, and the
edge records grouped under their headings — each heading's edge type together
with the block rows parsed under it, in order. -/
theorem read_m1_contract (file : Str) :
    (isOkE (read_m1 file) = false ↔
      (m1Scan file).bad = true ∨ (m1Scan file).nameSeen = false ∨
        (m1Scan file).nodeRows = [] ∨ scanEdges (m1Scan file) = []) ∧
    (∀ M, read_m1 file = Except.ok M →
      M.meta.name = (m1Scan file).lastName ∧
      M.meta.values = (m1Scan file).metaValues ∧
      M.nodes = (m1Scan file).nodeRows ∧
      M.edges = scanEdges (m1Scan file)) := by
  unfold m1Scan
  have hPinit : PInv initR initScan := by
    refine ⟨rfl, rfl, rfl, rfl, rfl, by simp [initR, initScan], rfl, rfl, rfl, ?_⟩
    simp [initR, initScan]
  have h0 := fold_scan (splitOnC '\n' file) initR initScan rfl hPinit
  cases hf : (splitOnC '\n' file).foldlM stepLine initR with
  | error e =>
    have hbadF := h0.2 e hf
    have hread : read_m1 file = Except.error e := by
      unfold read_m1
      rw [hf]
      rfl
    constructor
    · rw [hread]
      constructor
      · intro _
        exact Or.inl hbadF
      · intro _
        rfl
    · intro M hM
      rw [hread] at hM
      cases hM
  | ok stF =>
    obtain ⟨hbF, hPF⟩ := h0.1 stF hf
    obtain ⟨hm, hnm, hname, hvals, hnodes, hhn, hct, hcb2, hed, hhe⟩ := hPF
    have hread : read_m1 file = finalizeR stF := by
      unfold read_m1
      rw [hf]
      rfl
    have hflagE : ((if stF.cur_blocks ≠ [] then true else stF.has_edges) = true) ↔
        scanEdges ((splitOnC '\n' file).foldl scanLine initScan) ≠ [] := by
      unfold scanEdges
      rw [← hcb2, ← hct]
      by_cases hcb : stF.cur_blocks ≠ []
      · rw [if_pos hcb, if_pos hcb]
        simp
      · rw [if_neg hcb, if_neg hcb]
        exact hhe
    constructor
    · rw [hread]
      unfold finalizeR
      by_cases h1 : stF.has_meta = false
      · rw [if_pos h1]
        simp only [isOkE, true_iff]
        right; left
        rw [← hnm]
        exact h1
      · rw [if_neg h1]
        by_cases h2 : stF.has_node = false
        · rw [if_pos h2]
          simp only [isOkE, true_iff]
          right; right; left
          by_contra hne
          have hntrue : stF.has_node = true := hhn.mpr hne
          rw [hntrue] at h2
          exact Bool.noConfusion h2
        · rw [if_neg h2]
          by_cases h3 : (if stF.cur_blocks ≠ [] then true else stF.has_edges) = false
          · rw [if_pos h3]
            simp only [isOkE, true_iff]
            right; right; right
            by_contra hne
            have := hflagE.mpr hne
            rw [this] at h3
            exact absurd h3 (by simp)
          · rw [if_neg h3]
            simp only [isOkE, Bool.true_eq_false, false_iff]
            intro hcon
            rcases hcon with hc | hc | hc | hc
            · rw [hbF] at hc
              exact Bool.false_ne_true hc
            · rw [← hnm] at hc
              rw [Bool.not_eq_false] at h1
              rw [h1] at hc
              exact Bool.noConfusion hc
            · have := hhn.mp (by rwa [Bool.not_eq_false] at h2)
              exact this hc
            · have := hflagE.mp (by rwa [Bool.not_eq_false] at h3)
              exact this hc
    · intro M hM
      rw [hread] at hM
      unfold finalizeR at hM
      by_cases h1 : stF.has_meta = false
      · rw [if_pos h1] at hM
        cases hM
      · rw [if_neg h1] at hM
        by_cases h2 : stF.has_node = false
        · rw [if_pos h2] at hM
          cases hM
        · rw [if_neg h2] at hM
          by_cases h3 : (if stF.cur_blocks ≠ [] then true else stF.has_edges) = false
          · rw [if_pos h3] at hM
            cases hM
          · rw [if_neg h3] at hM
            cases hM
            refine ⟨hname, hvals, hnodes, ?_⟩
            unfold scanEdges
            rw [← hcb2, ← hct, ← hed]

/-- A file containing a NAME entry, a valid node row and a valid edge-block
row, followed by an unrecognised directive. -/
def c7File : Str :=
  ("# META\nNAME=x\n# NODES\n0,1,A\n# EDGES=e\n0,1,0,1,1\n# FOO\n").data

/-- Claim C7 (counterexample): this file yields a NAME meta entry, a valid
node row and a valid edge-block row, yet deserialization throws — on the
unknown directive # FOO — so deserialization is not fatal exactly on the
missing-NAME / missing-node / missing-edge conditions alone. -/
theorem read_m1_fatal_on_unknown_directive :
    isOkE (read_m1 c7File) = false ∧
      (m1Scan c7File).nameSeen = true ∧
      (m1Scan c7File).nodeRows ≠ [] ∧
      scanEdges (m1Scan c7File) ≠ [] := by
  refine ⟨by decide, by decide, ?_, ?_⟩
  · decide
  · decide

/-- Witness for claim C7: the reader contract applied to a concrete valid
file. -/
theorem read_m1_contract_witness :
    (isOkE (read_m1 (("# META\nNAME=x\n# NODES\n0,1,A\n# EDGES=e\n0,1,0,1,1\n").data)) =
        false ↔
      (m1Scan (("# META\nNAME=x\n# NODES\n0,1,A\n# EDGES=e\n0,1,0,1,1\n").data)).bad =
          true ∨
        (m1Scan (("# META\nNAME=x\n# NODES\n0,1,A\n# EDGES=e\n0,1,0,1,1\n").data)).nameSeen =
          false ∨
        (m1Scan (("# META\nNAME=x\n# NODES\n0,1,A\n# EDGES=e\n0,1,0,1,1\n").data)).nodeRows =
          [] ∨
        scanEdges
            (m1Scan (("# META\nNAME=x\n# NODES\n0,1,A\n# EDGES=e\n0,1,0,1,1\n").data)) =
          []) ∧
    (∀ M, read_m1 (("# META\nNAME=x\n# NODES\n0,1,A\n# EDGES=e\n0,1,0,1,1\n").data) =
        Except.ok M →
      M.meta.name =
        (m1Scan (("# META\nNAME=x\n# NODES\n0,1,A\n# EDGES=e\n0,1,0,1,1\n").data)).lastName ∧
      M.meta.values =
        (m1Scan (("# META\nNAME=x\n# NODES\n0,1,A\n# EDGES=e\n0,1,0,1,1\n").data)).metaValues ∧
      M.nodes =
        (m1Scan (("# META\nNAME=x\n# NODES\n0,1,A\n# EDGES=e\n0,1,0,1,1\n").data)).nodeRows ∧
      M.edges =
        scanEdges
          (m1Scan (("# META\nNAME=x\n# NODES\n0,1,A\n# EDGES=e\n0,1,0,1,1\n").data))) :=
  read_m1_contract (("# META\nNAME=x\n# NODES\n0,1,A\n# EDGES=e\n0,1,0,1,1\n").data)

/-! ## Round-trip of the codec -/

/-- Value recovered when a rational is rendered with six decimals and parsed
back: the sign times the rounded magnitude over one million. -/
def round6 (q : ℚ) : ℚ :=
  (if q < 0 then (-1 : ℚ) else 1) *
    (((Int.floor (|q| * 1000000 + 1 / 2)).toNat : ℚ) / 1000000)

theorem hdm6 (m : ℕ) : ((m / 1000000 : ℕ) : ℚ) + ((m % 1000000 : ℕ) : ℚ) / 1000000 =
    (m : ℚ) / 1000000 := by
  have hnat : (m / 1000000) * 1000000 + m % 1000000 = m := by omega
  field_simp
  exact_mod_cast hnat

theorem parseDecChars_fmt6Chars_gen (q : ℚ) :
    parseDecChars (fmt6Chars q) = some (round6 q) := by
  set m : ℕ := (Int.floor (|q| * 1000000 + 1 / 2)).toNat with hm
  have hfc : fmt6Chars q =
      (if q < 0 then ['-'] else []) ++
        natDigits (m / 1000000) ++ '.' :: padLeft6 (natDigits (m % 1000000)) := rfl
  have hmod : m % 1000000 < 1000000 := Nat.mod_lt _ (by omega)
  by_cases hneg : q < 0
  · rw [hfc, if_pos hneg]
    have hcore := parseDecChars_core true (m / 1000000) (m % 1000000) hmod
    simp only [cond_true] at hcore
    rw [hcore, hdm6 m]
    unfold round6
    rw [if_pos hneg]
  · rw [hfc, if_neg hneg]
    have hcore := parseDecChars_core false (m / 1000000) (m % 1000000) hmod
    simp only [cond_false] at hcore
    rw [List.nil_append] at hcore ⊢
    rw [hcore, hdm6 m]
    unfold round6
    rw [if_neg hneg]

theorem round6_eq_self {q : ℚ} (h : dec6 q) : round6 q = q := by
  have h1 := parseDecChars_fmt6Chars h
  have h2 := parseDecChars_fmt6Chars_gen q
  rw [h1] at h2
  exact (Option.some.injEq _ _ ▸ h2).symm

theorem fmt6Chars_mem {q : ℚ} :
    ∀ c ∈ fmt6Chars q, c = '-' ∨ c = '.' ∨ isDig c = true := by
  intro c hc
  unfold fmt6Chars at hc
  simp only [List.mem_append, List.mem_cons] at hc
  rcases hc with (hc | hc) | hc | hc
  · left
    by_cases hq : q < 0
    · rw [if_pos hq] at hc
      simpa using hc
    · rw [if_neg hq] at hc
      simp at hc
  · right; right
    exact natDigits_all_dig _ c hc
  · right; left
    exact hc
  · right; right
    exact padLeft6_all_dig (natDigits_all_dig _) c hc

theorem fmt6Chars_head (q : ℚ) :
    ∃ c t, fmt6Chars q = c :: t ∧ (c = '-' ∨ isDig c = true) := by
  have hfc : fmt6Chars q =
      (if q < 0 then ['-'] else []) ++
        natDigits ((Int.floor (|q| * 1000000 + 1 / 2)).toNat / 1000000) ++
          '.' :: padLeft6 (natDigits
            ((Int.floor (|q| * 1000000 + 1 / 2)).toNat % 1000000)) := rfl
  obtain ⟨c, t, hct⟩ : ∃ c t,
      natDigits ((Int.floor (|q| * 1000000 + 1 / 2)).toNat / 1000000) = c :: t := by
    cases hcase : natDigits ((Int.floor (|q| * 1000000 + 1 / 2)).toNat / 1000000) with
    | nil => exact absurd hcase (natDigits_ne_nil _)
    | cons c t => exact ⟨c, t, rfl⟩
  have hd : isDig c = true := natDigits_all_dig _ c (by rw [hct]; simp)
  by_cases hq : q < 0
  · rw [hfc, if_pos hq]
    exact ⟨'-', _, rfl, Or.inl rfl⟩
  · rw [hfc, if_neg hq, List.nil_append, hct, List.cons_append]
    exact ⟨c, _, rfl, Or.inr hd⟩

theorem fmt6Chars_no_char {q : ℚ} {c0 : Char}
    (h1 : c0 ≠ '-') (h2 : c0 ≠ '.') (h3 : isDig c0 = false) :
    c0 ∉ fmt6Chars q := by
  intro hc
  rcases fmt6Chars_mem c0 hc with h | h | h
  · exact h1 h
  · exact h2 h
  · rw [h3] at h
    exact Bool.noConfusion h

theorem getLast?_mem_str {l : Str} {a : Char} (h : l.getLast? = some a) : a ∈ l := by
  induction l with
  | nil => simp at h
  | cons c t ih =>
    cases t with
    | nil =>
      simp at h
      simp [h]
    | cons c2 t2 =>
      rw [List.getLast?_cons_cons] at h
      exact List.mem_cons_of_mem _ (ih h)

theorem splitFirst_append {sep : Char} {l1 l2 : Str} (h : sep ∉ l1) :
    splitFirst sep (l1 ++ sep :: l2) = (l1, l2) := by
  induction l1 with
  | nil => simp [splitFirst]
  | cons a t ih =>
    have ha : a ≠ sep := by
      intro hh
      exact h (by rw [hh]; simp)
    simp only [List.cons_append, splitFirst, if_neg ha, List.append_eq]
    rw [ih (fun hmem => h (by simp [hmem]))]

theorem splitFirst_no_sep {sep : Char} {l : Str} (h : sep ∉ l) :
    splitFirst sep l = (l, []) := by
  induction l with
  | nil => rfl
  | cons a t ih =>
    have ha : a ≠ sep := by
      intro hh
      exact h (by rw [hh]; simp)
    simp only [splitFirst, if_neg ha]
    rw [ih (fun hmem => h (by simp [hmem]))]

theorem afterFirstEq_edges (ty : Str) :
    afterFirstEq (("# EDGES=").data ++ ty) = ty := by
  unfold afterFirstEq
  rw [show (("# EDGES=").data ++ ty) = (("# EDGES").data ++ '=' :: ty) from rfl]
  rw [if_pos (by simp)]
  rw [splitFirst_append (by decide)]

theorem strData_ne_nil {s : String} (h : s ≠ "") : s.data ≠ [] := by
  intro hd
  apply h
  have h2 : String.mk s.data = String.mk [] := congrArg String.mk hd
  exact h2

theorem stripCR_of_ne {l : Str} (h : l.getLast? ≠ some '\r') : stripCR l = l := by
  unfold stripCR
  rw [if_neg h]

theorem getLast?_append_ne {l1 l2 : Str} (h : l2 ≠ []) :
    (l1 ++ l2).getLast? = l2.getLast? := by
  obtain ⟨x, hx⟩ : ∃ x, l2.getLast? = some x := by
    cases hc : l2.getLast? with
    | none => exact absurd (List.getLast?_eq_none_iff.mp hc) h
    | some x => exact ⟨x, rfl⟩
  rw [List.getLast?_append, hx]
  rfl

theorem head_ne_hash {c : Char} (h : c = '-' ∨ isDig c = true) : c ≠ '#' := by
  rcases h with rfl | h
  · decide
  · intro hh
    subst hh
    exact absurd h (by decide)

theorem hasPfx_hash_false {c : Char} {t : Str} (h : c ≠ '#') :
    hasPfx ['#'] (c :: t) = false := by
  unfold hasPfx
  simp only [Bool.and_eq_false_iff]
  left
  simpa using fun hh => h hh.symm

theorem step_blank (st : RState) : stepLine st [] = Except.ok st := rfl

theorem step_meta_dir (st : RState) :
    stepLine st (("# META").data) = Except.ok { st with mode := RMode.mmeta } := rfl

theorem step_nodes_dir (st : RState) :
    stepLine st (("# NODES").data) = Except.ok { st with mode := RMode.mnodes } := rfl

theorem step_edges_dir (st : RState) (ty : String)
    (hcr : ty.data.getLast? ≠ some '\r') :
    stepLine st (("# EDGES=").data ++ ty.data) =
      Except.ok { st with
        mode := RMode.medges,
        edges := if st.cur_blocks ≠ [] then st.edges ++ [⟨st.cur_type, st.cur_blocks⟩]
          else st.edges,
        has_edges := if st.cur_blocks ≠ [] then true else st.has_edges,
        cur_type := ty,
        cur_blocks := [] } := by
  have hstrip : stripCR (("# EDGES=").data ++ ty.data) = ("# EDGES=").data ++ ty.data := by
    apply stripCR_of_ne
    cases hd : ty.data with
    | nil =>
      decide
    | cons c cs =>
      rw [getLast?_append_ne (by simp)]
      exact hd ▸ hcr
  unfold stepLine
  dsimp only
  rw [hstrip]
  rw [if_neg (show ¬ (("# EDGES=").data ++ ty.data = []) by simp)]
  rw [if_pos (show hasPfx ['#'] (("# EDGES=").data ++ ty.data) = true from rfl)]
  rw [if_neg (show ¬ (hasPfx (("# META").data) (("# EDGES=").data ++ ty.data) = true) by
    intro hh; exact Bool.noConfusion ((rfl : hasPfx (("# META").data)
      (("# EDGES=").data ++ ty.data) = false) ▸ hh))]
  rw [if_neg (show ¬ (hasPfx (("# NODES").data) (("# EDGES=").data ++ ty.data) = true) by
    intro hh; exact Bool.noConfusion ((rfl : hasPfx (("# NODES").data)
      (("# EDGES=").data ++ ty.data) = false) ▸ hh))]
  rw [if_pos (show hasPfx (("# EDGES").data) (("# EDGES=").data ++ ty.data) = true from rfl)]
  rw [afterFirstEq_edges ty.data]

theorem step_name_line (st : RState) (hm : st.mode = RMode.mmeta) (name : String)
    (hne : name ≠ "") (hcr : name.data.getLast? ≠ some '\r') :
    stepLine st (("NAME=").data ++ name.data) =
      Except.ok { st with name := name, has_meta := true } := by
  obtain ⟨m0, n0, v0, hm0, nd0, hn0, ct0, cb0, ed0, he0⟩ := st
  have hm2 : m0 = RMode.mmeta := hm
  subst hm2
  have hstrip : stripCR (("NAME=").data ++ name.data) = ("NAME=").data ++ name.data :=
    stripCR_of_ne (by rw [getLast?_append_ne (strData_ne_nil hne)]; exact hcr)
  unfold stepLine
  dsimp only
  rw [hstrip]
  rw [if_neg (show ¬ (("NAME=").data ++ name.data = []) by simp)]
  rw [show hasPfx ['#'] (("NAME=").data ++ name.data) = false from rfl]
  rw [if_neg Bool.false_ne_true]
  dsimp only
  rw [show splitFirst '=' (("NAME=").data ++ name.data) = (("NAME").data, name.data)
    from rfl]
  dsimp only
  rw [if_neg (show ¬ ((("NAME").data = []) ∨ (name.data = [])) by
    simp [strData_ne_nil hne])]
  rw [if_pos rfl]

theorem step_kv_line (st : RState) (hm : st.mode = RMode.mmeta) (k v : String)
    (hkne : k ≠ "") (hvne : v ≠ "") (hkname : k ≠ "NAME")
    (hkeq : '=' ∉ k.data) (hkhash : k.data.head? ≠ some '#')
    (hcr : v.data.getLast? ≠ some '\r') :
    stepLine st (k.data ++ '=' :: v.data) =
      Except.ok { st with values := mapInsert st.values k v } := by
  obtain ⟨m0, n0, v0, hm0, nd0, hn0, ct0, cb0, ed0, he0⟩ := st
  have hm2 : m0 = RMode.mmeta := hm
  subst hm2
  obtain ⟨kc, kt, hk⟩ : ∃ kc kt, k.data = kc :: kt := by
    cases hc : k.data with
    | nil => exact absurd hc (strData_ne_nil hkne)
    | cons kc kt => exact ⟨kc, kt, rfl⟩
  have hkc : kc ≠ '#' := by
    intro hh
    apply hkhash
    rw [hk, hh]
    rfl
  have hstrip : stripCR (k.data ++ '=' :: v.data) = k.data ++ '=' :: v.data :=
    stripCR_of_ne (by
      rw [getLast?_append_ne (by simp)]
      cases hv : v.data with
      | nil => simp
      | cons vc vt =>
        rw [show ('=' :: vc :: vt).getLast? = (vc :: vt).getLast? from
          List.getLast?_cons_cons]
        rw [← hv]
        exact hcr)
  unfold stepLine
  dsimp only
  rw [hstrip]
  rw [if_neg (show ¬ (k.data ++ '=' :: v.data = []) by simp)]
  rw [hk, List.cons_append, hasPfx_hash_false hkc, if_neg Bool.false_ne_true]
  rw [← List.cons_append, ← hk]
  rw [splitFirst_append hkeq]
  dsimp only
  rw [if_neg (show ¬ ((k.data = []) ∨ (v.data = [])) by
    simp [strData_ne_nil hkne, strData_ne_nil hvne])]
  rw [if_neg (show ¬ (k.data = ("NAME").data) by
    intro hh
    apply hkname
    have h2 : String.mk k.data = String.mk (("NAME").data) := congrArg String.mk hh
    exact h2)]

theorem fmt6Chars_ne_nil (q : ℚ) : fmt6Chars q ≠ [] := by
  obtain ⟨c, t, hct, _⟩ := fmt6Chars_head q
  rw [hct]
  simp

theorem comma_notin_fmt6 (q : ℚ) : ',' ∉ fmt6Chars q :=
  fmt6Chars_no_char (by decide) (by decide) (by decide)

theorem fmt6_last_not_cr (q : ℚ) : (fmt6Chars q).getLast? ≠ some '\r' := by
  intro hh
  rcases fmt6Chars_mem _ (getLast?_mem_str hh) with h | h | h
  · exact absurd h (by decide)
  · exact absurd h (by decide)
  · exact absurd h (by decide)

theorem getLast?_field {l1 l2 : Str} (h : l2 ≠ []) :
    (l1 ++ ',' :: l2).getLast? = l2.getLast? := by
  rw [getLast?_append_ne (by simp)]
  rw [show (',' :: l2) = [','] ++ l2 from rfl]
  rw [getLast?_append_ne h]

theorem step_node_line (st : RState) (hm : st.mode = RMode.mnodes) (n : Node_Record)
    (hty : n.node_type ≠ "") (hcomma : ',' ∉ n.node_type.data)
    (hcr : n.node_type.data.getLast? ≠ some '\r') :
    stepLine st (nodeLineChars n) =
      Except.ok { st with
        nodes := st.nodes ++ [⟨round6 n.startID, round6 n.endID, n.node_type⟩]
        has_node := true } := by
  obtain ⟨m0, n0, v0, hm0, nd0, hn0, ct0, cb0, ed0, he0⟩ := st
  have hm2 : m0 = RMode.mnodes := hm
  subst hm2
  have hline : nodeLineChars n = fmt6Chars n.startID ++
      ',' :: (fmt6Chars n.endID ++ ',' :: n.node_type.data) := by
    unfold nodeLineChars
    simp [List.append_assoc]
  have hlast : (nodeLineChars n).getLast? = n.node_type.data.getLast? := by
    rw [hline, getLast?_field (by simp), getLast?_field (strData_ne_nil hty)]
  have hstrip : stripCR (nodeLineChars n) = nodeLineChars n :=
    stripCR_of_ne (by rw [hlast]; exact hcr)
  obtain ⟨c, t, hct, hcd⟩ := fmt6Chars_head n.startID
  unfold stepLine
  dsimp only
  rw [hstrip, hline]
  rw [if_neg (show ¬ (fmt6Chars n.startID ++
      ',' :: (fmt6Chars n.endID ++ ',' :: n.node_type.data) = []) by simp)]
  rw [hct, List.cons_append, hasPfx_hash_false (head_ne_hash hcd),
    if_neg Bool.false_ne_true]
  rw [← List.cons_append, ← hct]
  rw [splitFirst_append (comma_notin_fmt6 n.startID)]
  dsimp only
  rw [splitFirst_append (comma_notin_fmt6 n.endID)]
  dsimp only
  rw [if_neg (show ¬ (fmt6Chars n.startID = [] ∨ fmt6Chars n.endID = [] ∨
      n.node_type.data = []) by
    push_neg
    exact ⟨fmt6Chars_ne_nil _, fmt6Chars_ne_nil _, strData_ne_nil hty⟩)]
  rw [parseDecChars_fmt6Chars_gen n.startID, parseDecChars_fmt6Chars_gen n.endID]

theorem step_block_line (st : RState) (hm : st.mode = RMode.medges) (b : Edge_Block) :
    stepLine st (blockLineChars b) =
      Except.ok { st with cur_blocks := st.cur_blocks ++
        [⟨round6 b.startX, round6 b.endX, round6 b.startY, round6 b.endY,
          round6 b.expression_probability⟩] } := by
  obtain ⟨m0, n0, v0, hm0, nd0, hn0, ct0, cb0, ed0, he0⟩ := st
  have hm2 : m0 = RMode.medges := hm
  subst hm2
  have hline : blockLineChars b = fmt6Chars b.startX ++
      ',' :: (fmt6Chars b.endX ++ ',' :: (fmt6Chars b.startY ++
        ',' :: (fmt6Chars b.endY ++
          ',' :: fmt6Chars b.expression_probability))) := by
    unfold blockLineChars
    simp [List.append_assoc]
  have hlast : (blockLineChars b).getLast? =
      (fmt6Chars b.expression_probability).getLast? := by
    rw [hline, getLast?_field (by simp), getLast?_field (by simp),
      getLast?_field (by simp), getLast?_field (fmt6Chars_ne_nil _)]
  have hstrip : stripCR (blockLineChars b) = blockLineChars b :=
    stripCR_of_ne (by rw [hlast]; exact fmt6_last_not_cr _)
  obtain ⟨c, t, hct, hcd⟩ := fmt6Chars_head b.startX
  unfold stepLine
  dsimp only
  rw [hstrip, hline]
  rw [if_neg (show ¬ (fmt6Chars b.startX ++
      ',' :: (fmt6Chars b.endX ++ ',' :: (fmt6Chars b.startY ++
        ',' :: (fmt6Chars b.endY ++
          ',' :: fmt6Chars b.expression_probability))) = []) by simp)]
  rw [hct, List.cons_append, hasPfx_hash_false (head_ne_hash hcd),
    if_neg Bool.false_ne_true]
  rw [← List.cons_append, ← hct]
  rw [splitFirst_append (comma_notin_fmt6 b.startX)]
  dsimp only
  rw [splitFirst_append (comma_notin_fmt6 b.endX)]
  dsimp only
  rw [splitFirst_append (comma_notin_fmt6 b.startY)]
  dsimp only
  rw [splitFirst_append (comma_notin_fmt6 b.endY)]
  dsimp only
  rw [if_neg (show ¬ (fmt6Chars b.startX = [] ∨ fmt6Chars b.endX = [] ∨
      fmt6Chars b.startY = [] ∨ fmt6Chars b.endY = [] ∨
      fmt6Chars b.expression_probability = []) by
    push_neg
    exact ⟨fmt6Chars_ne_nil _, fmt6Chars_ne_nil _, fmt6Chars_ne_nil _,
      fmt6Chars_ne_nil _, fmt6Chars_ne_nil _⟩)]
  rw [parseDecChars_fmt6Chars_gen b.startX, parseDecChars_fmt6Chars_gen b.endX,
    parseDecChars_fmt6Chars_gen b.startY, parseDecChars_fmt6Chars_gen b.endY,
    parseDecChars_fmt6Chars_gen b.expression_probability]

/-- Rounding of one node record through the 6-decimal rendering. -/
def round6Node (n : Node_Record) : Node_Record :=
  ⟨round6 n.startID, round6 n.endID, n.node_type⟩

/-- Rounding of one edge block through the 6-decimal rendering. -/
def round6Block (b : Edge_Block) : Edge_Block :=
  ⟨round6 b.startX, round6 b.endX, round6 b.startY, round6 b.endY,
    round6 b.expression_probability⟩

/-- Rounding of one edge record through the 6-decimal rendering. -/
def round6ER (er : Edge_Record) : Edge_Record :=
  ⟨er.edge_type, er.blocks.map round6Block⟩

/-- The model as it survives a write/read cycle: every numeric field passes
through the 6-decimal rendering, everything else is unchanged. -/
def m1Round6 (d : m1_data) : m1_data :=
  ⟨d.meta, d.nodes.map round6Node, d.edges.map round6ER⟩

/-- State transformation of one whole EDGES section on the reader state: the
pending record is flushed, the mode and the current type are set, and the
section's blocks become the pending blocks. -/
def edgeSectionStep (st : RState) (er : Edge_Record) : RState :=
  { st with
    mode := RMode.medges,
    edges := if st.cur_blocks ≠ [] then st.edges ++ [⟨st.cur_type, st.cur_blocks⟩]
      else st.edges,
    has_edges := if st.cur_blocks ≠ [] then true else st.has_edges,
    cur_type := er.edge_type,
    cur_blocks := er.blocks.map round6Block }

theorem splitOnC_ne_nil (sep : Char) (l : Str) : splitOnC sep l ≠ [] := by
  cases l with
  | nil => simp [splitOnC]
  | cons c t =>
    unfold splitOnC
    cases h : splitOnC sep t with
    | nil => simp
    | cons a r =>
      dsimp only
      split <;> simp

theorem splitOnC_cons {sep : Char} {l1 rest : Str} (h : sep ∉ l1) :
    splitOnC sep (l1 ++ sep :: rest) = l1 :: splitOnC sep rest := by
  induction l1 with
  | nil =>
    show splitOnC sep (sep :: rest) = [] :: splitOnC sep rest
    conv_lhs => rw [splitOnC]
    cases hs : splitOnC sep rest with
    | nil => exact absurd hs (splitOnC_ne_nil sep rest)
    | cons a r =>
      dsimp only
      rw [if_pos rfl]
  | cons a t ih =>
    have ha : a ≠ sep := by
      intro hh
      exact h (by rw [hh]; exact List.mem_cons_self _ _)
    have ht : sep ∉ t := fun hh => h (List.mem_cons_of_mem a hh)
    show splitOnC sep (a :: (t ++ sep :: rest)) = (a :: t) :: splitOnC sep rest
    conv_lhs => rw [splitOnC]
    rw [ih ht]
    dsimp only
    rw [if_neg ha]

theorem splitOnC_flatten {lines : List Str} (h : ∀ l ∈ lines, '\n' ∉ l) :
    splitOnC '\n' ((lines.map (fun l => l ++ ['\n'])).flatten) = lines ++ [[]] := by
  induction lines with
  | nil => simp [splitOnC]
  | cons a t ih =>
    simp only [List.map_cons, List.flatten_cons, List.append_assoc]
    rw [show ((['\n'] : Str) ++ (t.map (fun l => l ++ ['\n'])).flatten) =
      '\n' :: (t.map (fun l => l ++ ['\n'])).flatten from rfl]
    rw [splitOnC_cons (h a (List.mem_cons_self a t))]
    rw [ih (fun l hl => h l (List.mem_cons_of_mem a hl))]
    rfl

theorem foldlM_step_cons (st st' : RState) (l : Str) (ls : List Str)
    (h : stepLine st l = Except.ok st') :
    (l :: ls).foldlM stepLine st = ls.foldlM stepLine st' := by
  simp only [List.foldlM_cons, h]
  rfl

theorem mapInsert_big {m : List (String × String)} {k v : String}
    (h : ∀ kv ∈ m, kv.1 < k) : mapInsert m k v = m ++ [(k, v)] := by
  induction m with
  | nil => rfl
  | cons a t ih =>
    obtain ⟨a1, a2⟩ := a
    have hak : a1 < k := h (a1, a2) (List.mem_cons_self _ t)
    show (if k < a1 then (k, v) :: (a1, a2) :: t
      else if k = a1 then (k, v) :: t
      else (a1, a2) :: mapInsert t k v) = (a1, a2) :: t ++ [(k, v)]
    rw [if_neg (not_lt_of_gt hak), if_neg (ne_of_gt hak)]
    rw [ih (fun kv hkv => h kv (List.mem_cons_of_mem _ hkv))]
    rfl

theorem foldl_mapInsert_pairwise {kvs : List (String × String)}
    (h : List.Pairwise (fun a b => a.1 < b.1) kvs) (acc : List (String × String))
    (hacc : ∀ p ∈ acc, ∀ q ∈ kvs, p.1 < q.1) :
    kvs.foldl (fun m kv => mapInsert m kv.1 kv.2) acc = acc ++ kvs := by
  induction kvs generalizing acc with
  | nil => simp
  | cons a t ih =>
    obtain ⟨a1, a2⟩ := a
    rw [List.foldl_cons]
    rw [mapInsert_big (fun kv hkv => hacc kv hkv (a1, a2) (List.mem_cons_self _ t))]
    rw [ih (List.pairwise_cons.mp h).2 (acc ++ [(a1, a2)]) ?_]
    · rw [List.append_assoc]
      rfl
    · intro p hp q hq
      rcases List.mem_append.mp hp with hp | hp
      · exact hacc p hp q (List.mem_cons_of_mem _ hq)
      · have hp2 : p = (a1, a2) := by simpa using hp
        rw [hp2]
        exact (List.pairwise_cons.mp h).1 q hq

/-- Well-formedness of one meta key/value pair for serialization: nonempty
key and value, key is not NAME, no equals sign or newline in the key, no
newline in the value, key does not start with a hash, value does not end in a
carriage return. -/
def kvOK (kv : String × String) : Prop :=
  kv.1 ≠ "" ∧ kv.2 ≠ "" ∧ kv.1 ≠ "NAME" ∧ '=' ∉ kv.1.data ∧
    '\n' ∉ kv.1.data ∧ '\n' ∉ kv.2.data ∧
    kv.1.data.head? ≠ some '#' ∧ kv.2.data.getLast? ≠ some '\r'

instance (kv : String × String) : Decidable (kvOK kv) := by
  unfold kvOK
  infer_instance

/-- Well-formedness of one node record's type string for serialization. -/
def nodeOK (n : Node_Record) : Prop :=
  n.node_type ≠ "" ∧ ',' ∉ n.node_type.data ∧ '\n' ∉ n.node_type.data ∧
    n.node_type.data.getLast? ≠ some '\r'

instance (n : Node_Record) : Decidable (nodeOK n) := by
  unfold nodeOK
  infer_instance

/-- Well-formedness of one edge record for serialization: at least one block
and a usable edge-type string. -/
def erOK (er : Edge_Record) : Prop :=
  er.blocks ≠ [] ∧ '\n' ∉ er.edge_type.data ∧
    er.edge_type.data.getLast? ≠ some '\r'

instance (er : Edge_Record) : Decidable (erOK er) := by
  unfold erOK
  infer_instance

theorem fold_meta_kvs (kvs : List (String × String)) (st : RState) (rest : List Str)
    (hm : st.mode = RMode.mmeta) (hv : ∀ kv ∈ kvs, kvOK kv) :
    (kvs.map metaLineChars ++ rest).foldlM stepLine st =
      rest.foldlM stepLine
        { st with
          values := kvs.foldl (fun m kv => mapInsert m kv.1 kv.2) st.values } := by
  induction kvs generalizing st with
  | nil =>
    simp only [List.map_nil, List.nil_append, List.foldl_nil]
  | cons kv t ih =>
    obtain ⟨hk1, hk2, hk3, hk4, hk5, hk6, hk7, hk8⟩ := hv kv (List.mem_cons_self kv t)
    simp only [List.map_cons, List.cons_append, List.foldl_cons]
    rw [show metaLineChars kv = kv.1.data ++ '=' :: kv.2.data from rfl]
    rw [foldlM_step_cons _ _ _ _ (step_kv_line st hm kv.1 kv.2 hk1 hk2 hk3 hk4 hk7 hk8)]
    exact ih { st with values := mapInsert st.values kv.1 kv.2 } hm
      (fun q hq => hv q (List.mem_cons_of_mem kv hq))

theorem fold_node_lines (ns : List Node_Record) (st : RState) (rest : List Str)
    (hm : st.mode = RMode.mnodes) (hv : ∀ n ∈ ns, nodeOK n) :
    (ns.map nodeLineChars ++ rest).foldlM stepLine st =
      rest.foldlM stepLine
        { st with
          nodes := st.nodes ++ ns.map round6Node
          has_node := st.has_node || !ns.isEmpty } := by
  induction ns generalizing st with
  | nil =>
    simp only [List.map_nil, List.nil_append, List.append_nil, List.isEmpty_nil,
      Bool.not_true, Bool.or_false]
  | cons n t ih =>
    obtain ⟨hn1, hn2, hn3, hn4⟩ := hv n (List.mem_cons_self n t)
    simp only [List.map_cons, List.cons_append]
    rw [foldlM_step_cons _ _ _ _ (step_node_line st hm n hn1 hn2 hn4)]
    rw [ih { st with
        nodes := st.nodes ++
          [(⟨round6 n.startID, round6 n.endID, n.node_type⟩ : Node_Record)]
        has_node := true } hm (fun q hq => hv q (List.mem_cons_of_mem n hq))]
    refine congrArg (fun X => List.foldlM stepLine X rest) ?_
    obtain ⟨m0, n0, v0, hm0, nd0, hn0, ct0, cb0, ed0, he0⟩ := st
    simp [round6Node, List.append_assoc]

theorem fold_block_lines (bs : List Edge_Block) (st : RState) (rest : List Str)
    (hm : st.mode = RMode.medges) :
    (bs.map blockLineChars ++ rest).foldlM stepLine st =
      rest.foldlM stepLine
        { st with cur_blocks := st.cur_blocks ++ bs.map round6Block } := by
  induction bs generalizing st with
  | nil =>
    simp only [List.map_nil, List.nil_append, List.append_nil]
  | cons b t ih =>
    simp only [List.map_cons, List.cons_append]
    rw [foldlM_step_cons _ _ _ _ (step_block_line st hm b)]
    rw [ih { st with
        cur_blocks := st.cur_blocks ++
          [(⟨round6 b.startX, round6 b.endX, round6 b.startY, round6 b.endY,
            round6 b.expression_probability⟩ : Edge_Block)] } hm]
    refine congrArg (fun X => List.foldlM stepLine X rest) ?_
    obtain ⟨m0, n0, v0, hm0, nd0, hn0, ct0, cb0, ed0, he0⟩ := st
    simp [round6Block, List.append_assoc]

theorem fold_edge_sections (ers : List Edge_Record) (st : RState) (rest : List Str)
    (hv : ∀ er ∈ ers, er.edge_type.data.getLast? ≠ some '\r') :
    (ers.flatMap edgeSectionLines ++ rest).foldlM stepLine st =
      rest.foldlM stepLine (ers.foldl edgeSectionStep st) := by
  induction ers generalizing st with
  | nil => simp only [List.flatMap_nil, List.nil_append, List.foldl_nil]
  | cons er t ih =>
    rw [List.flatMap_cons, List.foldl_cons]
    rw [show (edgeSectionLines er ++ t.flatMap edgeSectionLines) ++ rest =
      (("# EDGES=").data ++ er.edge_type.data) ::
        (er.blocks.map blockLineChars ++
          ([] :: (t.flatMap edgeSectionLines ++ rest))) from by
      simp [edgeSectionLines, List.append_assoc]]
    rw [foldlM_step_cons _ _ _ _
      (step_edges_dir st er.edge_type (hv er (List.mem_cons_self er t)))]
    rw [fold_block_lines er.blocks _ ([] :: (t.flatMap edgeSectionLines ++ rest)) rfl]
    rw [foldlM_step_cons _ _ _ _ (step_blank _)]
    rw [ih _ (fun q hq => hv q (List.mem_cons_of_mem er hq))]
    refine congrArg (fun X => List.foldlM stepLine (List.foldl edgeSectionStep X t) rest) ?_
    obtain ⟨m0, n0, v0, hm0, nd0, hn0, ct0, cb0, ed0, he0⟩ := st
    simp [edgeSectionStep]

/-- The edge records as finalizeR would flush them out of a state: the pending
block list, when nonempty, is appended as one more record. -/
def pendFlush (st : RState) : List Edge_Record :=
  if st.cur_blocks ≠ [] then st.edges ++ [⟨st.cur_type, st.cur_blocks⟩]
  else st.edges

theorem finalize_after_sections (ers : List Edge_Record) (st : RState)
    (hne : ers ≠ []) (hbs : ∀ er ∈ ers, er.blocks ≠ [])
    (hmeta : st.has_meta = true) (hnode : st.has_node = true) :
    finalizeR (ers.foldl edgeSectionStep st) =
      Except.ok ⟨⟨st.name, st.values⟩, st.nodes, pendFlush st ++ ers.map round6ER⟩ := by
  induction ers generalizing st with
  | nil => exact absurd rfl hne
  | cons er t ih =>
    have hb : er.blocks ≠ [] := hbs er (List.mem_cons_self er t)
    rw [List.foldl_cons]
    by_cases ht : t = []
    · subst ht
      rw [List.foldl_nil]
      obtain ⟨m0, n0, v0, hm0, nd0, hn0, ct0, cb0, ed0, he0⟩ := st
      have hm2 : hm0 = true := hmeta
      have hn2 : hn0 = true := hnode
      subst hm2
      subst hn2
      simp [finalizeR, edgeSectionStep, pendFlush, hb, round6ER]
    · rw [ih (edgeSectionStep st er) ht
        (fun q hq => hbs q (List.mem_cons_of_mem er hq)) hmeta hnode]
      refine congrArg Except.ok ?_
      refine congrArg (fun X => (⟨⟨st.name, st.values⟩, st.nodes, X⟩ : m1_data)) ?_
      obtain ⟨m0, n0, v0, hm0, nd0, hn0, ct0, cb0, ed0, he0⟩ := st
      simp [pendFlush, edgeSectionStep, hb, round6ER, List.append_assoc]

theorem nl_notin_nodeLine {n : Node_Record} (h : '\n' ∉ n.node_type.data) :
    '\n' ∉ nodeLineChars n := by
  intro hc
  rw [show nodeLineChars n = fmt6Chars n.startID ++
      ',' :: (fmt6Chars n.endID ++ ',' :: n.node_type.data) from by
    unfold nodeLineChars
    simp [List.append_assoc]] at hc
  rcases List.mem_append.mp hc with hc | hc
  · exact fmt6Chars_no_char (by decide) (by decide) (by decide) hc
  · rcases List.mem_cons.mp hc with hc | hc
    · exact absurd hc (by decide)
    · rcases List.mem_append.mp hc with hc | hc
      · exact fmt6Chars_no_char (by decide) (by decide) (by decide) hc
      · rcases List.mem_cons.mp hc with hc | hc
        · exact absurd hc (by decide)
        · exact h hc

theorem nl_notin_blockLine (b : Edge_Block) : '\n' ∉ blockLineChars b := by
  intro hc
  rw [show blockLineChars b = fmt6Chars b.startX ++
      ',' :: (fmt6Chars b.endX ++ ',' :: (fmt6Chars b.startY ++
        ',' :: (fmt6Chars b.endY ++
          ',' :: fmt6Chars b.expression_probability))) from by
    unfold blockLineChars
    simp [List.append_assoc]] at hc
  have hf : ∀ q : ℚ, '\n' ∉ fmt6Chars q := fun q =>
    fmt6Chars_no_char (by decide) (by decide) (by decide)
  rcases List.mem_append.mp hc with hc | hc
  · exact hf _ hc
  · rcases List.mem_cons.mp hc with hc | hc
    · exact absurd hc (by decide)
    · rcases List.mem_append.mp hc with hc | hc
      · exact hf _ hc
      · rcases List.mem_cons.mp hc with hc | hc
        · exact absurd hc (by decide)
        · rcases List.mem_append.mp hc with hc | hc
          · exact hf _ hc
          · rcases List.mem_cons.mp hc with hc | hc
            · exact absurd hc (by decide)
            · rcases List.mem_append.mp hc with hc | hc
              · exact hf _ hc
              · rcases List.mem_cons.mp hc with hc | hc
                · exact absurd hc (by decide)
                · exact hf _ hc

theorem nl_notin_metaLine {kv : String × String}
    (h5 : '\n' ∉ kv.1.data) (h6 : '\n' ∉ kv.2.data) : '\n' ∉ metaLineChars kv := by
  intro hc
  rcases List.mem_append.mp hc with hc | hc
  · exact h5 hc
  · rcases List.mem_cons.mp hc with hc | hc
    · exact absurd hc (by decide)
    · exact h6 hc

theorem nl_notin_edgeSection {er : Edge_Record} {l : Str}
    (h2 : '\n' ∉ er.edge_type.data) (hl : l ∈ edgeSectionLines er) : '\n' ∉ l := by
  unfold edgeSectionLines at hl
  rcases List.mem_cons.mp hl with rfl | hl
  · intro hc
    rcases List.mem_append.mp hc with hc | hc
    · exact absurd hc (by decide)
    · exact h2 hc
  · rcases List.mem_append.mp hl with hl | hl
    · obtain ⟨b, _, rfl⟩ := List.mem_map.mp hl
      exact nl_notin_blockLine b
    · rw [List.mem_singleton.mp hl]
      simp

theorem write_read_m1_general (M : m1_data)
    (hname : M.meta.name ≠ "") (hnamenl : '\n' ∉ M.meta.name.data)
    (hnamecr : M.meta.name.data.getLast? ≠ some '\r')
    (hsorted : List.Pairwise (fun a b => a.1 < b.1) M.meta.values)
    (hkv : ∀ kv ∈ M.meta.values, kvOK kv)
    (hns : M.nodes ≠ []) (hnok : ∀ n ∈ M.nodes, nodeOK n)
    (hes : M.edges ≠ []) (heok : ∀ er ∈ M.edges, erOK er) :
    (write_m1 M).bind read_m1 = Except.ok (m1Round6 M) := by
  have hchecks : writeChecks M = true := by
    unfold writeChecks
    simp only [Bool.and_eq_true, List.all_eq_true]
    refine ⟨⟨?_, ?_⟩, ?_⟩
    · intro kv hk
      obtain ⟨_, _, _, h4, h5, h6, _, _⟩ := hkv kv hk
      simp [h4, h5, h6]
    · intro n hn
      obtain ⟨_, _, h3, _⟩ := hnok n hn
      simp [h3]
    · intro er her
      obtain ⟨_, h2, _⟩ := heok er her
      simp [h2]
  have hnl : ∀ l ∈ writeLines M, '\n' ∉ l := by
    intro l hl
    unfold writeLines at hl
    rcases List.mem_cons.mp hl with rfl | hl
    · decide
    · rcases List.mem_cons.mp hl with rfl | hl
      · intro hc
        rcases List.mem_append.mp hc with hc | hc
        · exact absurd hc (by decide)
        · exact hnamenl hc
      · rcases List.mem_append.mp hl with hl | hl
        · rcases List.mem_append.mp hl with hl | hl
          · obtain ⟨kv, hkm, rfl⟩ := List.mem_map.mp hl
            obtain ⟨_, _, _, _, h5, h6, _, _⟩ := hkv kv hkm
            exact nl_notin_metaLine h5 h6
          · rw [List.mem_singleton.mp hl]
            simp
        · rcases List.mem_cons.mp hl with rfl | hl
          · decide
          · rcases List.mem_append.mp hl with hl | hl
            · rcases List.mem_append.mp hl with hl | hl
              · obtain ⟨n, hnm, rfl⟩ := List.mem_map.mp hl
                exact nl_notin_nodeLine (hnok n hnm).2.2.1
              · rw [List.mem_singleton.mp hl]
                simp
            · obtain ⟨er, herm, hl⟩ := List.mem_flatMap.mp hl
              exact nl_notin_edgeSection (heok er herm).2.1 hl
  rw [show write_m1 M =
      Except.ok (((writeLines M).map (fun l => l ++ ['\n'])).flatten) from by
    unfold write_m1
    rw [if_pos hchecks]]
  rw [show (Except.ok (((writeLines M).map (fun l => l ++ ['\n'])).flatten)).bind
      read_m1 = read_m1 (((writeLines M).map (fun l => l ++ ['\n'])).flatten)
    from rfl]
  unfold read_m1
  rw [splitOnC_flatten hnl]
  rw [show writeLines M ++ [[]] =
    ("# META").data :: (("NAME=").data ++ M.meta.name.data) ::
      (M.meta.values.map metaLineChars ++
        ([] :: (("# NODES").data ::
          (M.nodes.map nodeLineChars ++
            ([] :: (M.edges.flatMap edgeSectionLines ++ [[]])))))) from by
    unfold writeLines
    simp [List.append_assoc]]
  rw [foldlM_step_cons _ _ _ _ (step_meta_dir initR)]
  rw [foldlM_step_cons _ _ _ _
    (step_name_line ⟨RMode.mmeta, initR.name, initR.values, initR.has_meta,
      initR.nodes, initR.has_node, initR.cur_type, initR.cur_blocks, initR.edges,
      initR.has_edges⟩ rfl M.meta.name hname hnamecr)]
  rw [fold_meta_kvs M.meta.values _ _ rfl hkv]
  rw [foldlM_step_cons _ _ _ _ (step_blank _)]
  rw [foldlM_step_cons _ _ _ _ (step_nodes_dir _)]
  rw [fold_node_lines M.nodes _ _ rfl hnok]
  rw [foldlM_step_cons _ _ _ _ (step_blank _)]
  rw [fold_edge_sections M.edges _ [[]] (fun er her => (heok er her).2.2)]
  rw [foldlM_step_cons _ _ _ _ (step_blank _)]
  simp only [List.foldlM_nil, pure_bind]
  simp only [initR, List.nil_append, Bool.false_or]
  rw [foldl_mapInsert_pairwise hsorted [] (by intro p hp; simp at hp)]
  rw [List.nil_append]
  rw [show (!M.nodes.isEmpty) = true from by
    cases hcn : M.nodes with
    | nil => exact absurd hcn hns
    | cons a t => rfl]
  rw [finalize_after_sections M.edges _ hes (fun q hq => (heok q hq).1) rfl rfl]
  rfl

/-- Claim C4 (amended): for a model whose strings are serializable (nonempty
name, node types and edge sections; no newline, separator or directive
characters in the places the format reserves; meta keys strictly sorted as
the std::map iteration order guarantees) and whose numeric fields are exactly
representable with six decimals (as std::to_string renders them),
deserializing the file produced by serializing M yields exactly M: equal meta
name, equal meta key-value map, and the node and edge records reproduced in
order — not merely up to sorting.  Without the six-decimal condition the
round trip returns the model with every numeric field rounded, which is not
structurally equal to M. -/
theorem write_read_m1_spec (M : m1_data)
    (hname : M.meta.name ≠ "") (hnamenl : '\n' ∉ M.meta.name.data)
    (hnamecr : M.meta.name.data.getLast? ≠ some '\r')
    (hsorted : List.Pairwise (fun a b => a.1 < b.1) M.meta.values)
    (hkv : ∀ kv ∈ M.meta.values, kvOK kv)
    (hns : M.nodes ≠ []) (hnok : ∀ n ∈ M.nodes, nodeOK n)
    (hes : M.edges ≠ []) (heok : ∀ er ∈ M.edges, erOK er)
    (hd1 : ∀ n ∈ M.nodes, dec6 n.startID ∧ dec6 n.endID)
    (hd2 : ∀ er ∈ M.edges, ∀ b ∈ er.blocks, dec6 b.startX ∧ dec6 b.endX ∧
      dec6 b.startY ∧ dec6 b.endY ∧ dec6 b.expression_probability) :
    (write_m1 M).bind read_m1 = Except.ok M := by
  rw [write_read_m1_general M hname hnamenl hnamecr hsorted hkv hns hnok hes heok]
  refine congrArg Except.ok ?_
  have hn : M.nodes.map round6Node = M.nodes := by
    conv_rhs => rw [← List.map_id M.nodes]
    refine List.map_congr_left ?_
    intro n hn
    obtain ⟨hda, hdb⟩ := hd1 n hn
    unfold round6Node
    rw [round6_eq_self hda, round6_eq_self hdb]
    rfl
  have he : M.edges.map round6ER = M.edges := by
    conv_rhs => rw [← List.map_id M.edges]
    refine List.map_congr_left ?_
    intro er her
    unfold round6ER
    have hb : er.blocks.map round6Block = er.blocks := by
      conv_rhs => rw [← List.map_id er.blocks]
      refine List.map_congr_left ?_
      intro b hbm
      obtain ⟨h1, h2, h3, h4, h5⟩ := hd2 er her b hbm
      unfold round6Block
      rw [round6_eq_self h1, round6_eq_self h2, round6_eq_self h3,
        round6_eq_self h4, round6_eq_self h5]
      rfl
    rw [hb]
    rfl
  show m1Round6 M = M
  unfold m1Round6
  rw [hn, he]

/-- Model with a probability not representable in six decimals; its file
rendering is 0.333333, which does not read back as 1/3. -/
def c4Bad : m1_data :=
  ⟨⟨"g", []⟩, [⟨0, 1, "A"⟩], [⟨"e", [⟨0, 1, 0, 1, 1/3⟩]⟩]⟩

/-- Counterexample to claim C4 as stated: for the model with block
probability 1/3 the write/read round trip succeeds but returns a different
model, because write_m1_file renders every number with exactly six decimals
(std::to_string), so 1/3 comes back as 333333/1000000. -/
theorem write_read_m1_not_identity :
    isOkE ((write_m1 c4Bad).bind read_m1) = true ∧
      (write_m1 c4Bad).bind read_m1 ≠ Except.ok c4Bad := by
  have hgen := write_read_m1_general c4Bad (by decide) (by decide) (by decide)
    (by decide) (by decide) (by decide) (by decide) (by decide) (by decide)
  have hval : round6 ((1 : ℚ)/3) = 333333/1000000 := by
    unfold round6
    rw [if_neg (by norm_num)]
    rw [show |((1 : ℚ)/3)| = 1/3 from abs_of_nonneg (by norm_num)]
    rw [show Int.floor ((1 : ℚ)/3 * 1000000 + 1/2) = 333333 from by
      rw [Int.floor_eq_iff]
      constructor <;> norm_num]
    rw [show Int.toNat 333333 = 333333 from rfl]
    norm_num
  constructor
  · rw [hgen]
    rfl
  · rw [hgen]
    intro h
    have h2 : m1Round6 c4Bad = c4Bad := by
      injection h
    rw [show m1Round6 c4Bad = ⟨⟨"g", []⟩, [⟨round6 0, round6 1, "A"⟩],
      [⟨"e", [⟨round6 0, round6 1, round6 0, round6 1, round6 (1/3)⟩]⟩]⟩
      from rfl] at h2
    injection h2 with hmeta hnodes hedges
    injection hedges with he1 he2
    injection he1 with ht hb
    injection hb with hb1 hb2
    injection hb1 with e1 e2 e3 e4 e5
    rw [hval] at e5
    norm_num at e5

/-- Model with six-decimal-exact numbers for the round-trip witness. -/
def c4Good : m1_data :=
  ⟨⟨"g", [("K", "v")]⟩, [⟨0, 1, "A"⟩], [⟨"e", [⟨0, 1, 0, 1, 1⟩]⟩]⟩

/-- Witness for claim C4: the round-trip theorem applied to the concrete
model c4Good. -/
theorem write_read_m1_spec_witness :
    (write_m1 c4Good).bind read_m1 = Except.ok c4Good :=
  write_read_m1_spec c4Good (by decide) (by decide) (by decide) (by decide)
    (by decide) (by decide) (by decide) (by decide) (by decide)
    (by
      intro n hn
      rcases List.mem_singleton.mp hn with rfl
      exact ⟨by norm_num [dec6], by norm_num [dec6]⟩)
    (by
      intro er her b hb
      rcases List.mem_singleton.mp her with rfl
      rcases List.mem_singleton.mp hb with rfl
      exact ⟨by norm_num [dec6], by norm_num [dec6], by norm_num [dec6],
        by norm_num [dec6], by norm_num [dec6]⟩)

end GraphGen
